import Mathlib

/-!
Verification of the message-filtering core of this repository.

The development shallowly embeds `src/backend/app/services/security_filter.py`:
a small backtracking regular-expression engine reproduces the semantics that
Python's `re` module gives to the five compiled PII patterns (leftmost
position scan, first-success within a position under greedy repetition and
left-first alternation, non-overlapping `findall`/`sub`, `\b` word
boundaries), and `filterMessage` mirrors `SecurityFilter.filter_message`
statement by statement.  The request boundary of
`src/backend/app/api/chat.py` is embedded as `chatHandle` with the external
generative backend abstracted as a function parameter.

Word characters: Python's `\b` is defined through `\w`.  The inputs of this
repository use ASCII and Hangul syllables, so the embedded predicate covers
ASCII alphanumerics, the underscore and the Hangul-syllable block.
-/

def isWordChar (c : Char) : Bool :=
  c.isAlpha || c.isDigit || c == '_' || (0xAC00 ≤ c.toNat && c.toNat ≤ 0xD7A3)

/-- A character class as a union of inclusive ranges. -/
def memClass (rs : List (Char × Char)) (c : Char) : Bool :=
  rs.any (fun r => r.1 ≤ c && c ≤ r.2)

/-- The regular-expression fragment used by `Patterns`: literals, greedy
bounded repetition of a character class, concatenation, alternation and the
word-boundary assertion `\b`. -/
inductive RE : Type where
  | lit (cs : List Char)
  | seq (a b : RE)
  | alt (a b : RE)
  | rep (rs : List (Char × Char)) (lo : Nat) (hi : Option Nat)
  | wb
deriving Repr

/-- `\b` holds between two (optional) characters when exactly one side is a
word character; a missing side counts as non-word. -/
def boundary (prev next : Option Char) : Bool :=
  (match prev with | some c => isWordChar c | none => false)
    != (match next with | some c => isWordChar c | none => false)

/-- Remove a literal from the front of the text. -/
def stripLit : List Char → List Char → Option (List Char)
  | [], s => some s
  | _ :: _, [] => none
  | c :: cs, d :: ds => if c == d then stripLit cs ds else none

/-- Length of the longest front segment drawn from the class. -/
def leadCount (rs : List (Char × Char)) : List Char → Nat
  | [] => 0
  | c :: t => if memClass rs c then leadCount rs t + 1 else 0

/-- Greedy repetition: try consuming `n` class characters, then `n-1`, …,
down to `lo`; the continuation decides whether a candidate split stands. -/
def repGo (prev : Option Char) (s : List Char) (lo : Nat)
    (k : Option Char → List Char → Option (List Char)) : Nat → Option (List Char)
  | 0 => if lo == 0 then k prev s else none
  | n + 1 =>
    if lo ≤ n + 1 then
      (k (some ((s.get? n).getD ' ')) (s.drop (n + 1))) <|> repGo prev s lo k n
    else none

/-- The backtracking matcher in continuation-passing style.  `prev` is the
character just before the current position (for `\b`); the continuation
receives the new `prev` and the remaining text.  The traversal order coincides
with Python's: alternation tries the left branch first, repetition is greedy
and backtracks one character at a time. -/
def matchC : RE → Option Char → List Char →
    (Option Char → List Char → Option (List Char)) → Option (List Char)
  | .lit cs, prev, s, k =>
    match stripLit cs s with
    | some rest => k (cs.getLast? <|> prev) rest
    | none => none
  | .seq a b, prev, s, k => matchC a prev s (fun p s' => matchC b p s' k)
  | .alt a b, prev, s, k => (matchC a prev s k) <|> (matchC b prev s k)
  | .rep rs lo hi, prev, s, k =>
    repGo prev s lo k (match hi with
      | some h => min (leadCount rs s) h
      | none => leadCount rs s)
  | .wb, prev, s, k => if boundary prev s.head? then k prev s else none

/-- First match attempt at the current position: the remaining text after the
match the engine settles on, if any. -/
def firstRest (re : RE) (prev : Option Char) (s : List Char) : Option (List Char) :=
  matchC re prev s (fun _ rest => some rest)

/-- `re.findall` scan: walk the positions left to right, record each match and
resume after it.  The fuel is an upper bound on the number of steps; it is
instantiated with `length + 1`, which the scan never exhausts. -/
def scanAllF (re : RE) : Nat → Option Char → List Char → List (List Char)
  | 0, _, _ => []
  | _ + 1, _, [] => []
  | f + 1, prev, s@(c :: t) =>
    match firstRest re prev s with
    | some rest =>
      let n := s.length - rest.length
      if n = 0 then [] :: scanAllF re f (some c) t
      else (s.take n) :: scanAllF re f (some ((s.take n).getLast?.getD c)) rest
    | none => scanAllF re f (some c) t

/-- `re.sub` scan over the same traversal: emit the replacement for each
match, copy unmatched characters. -/
def subAllF (re : RE) (repl : List Char) : Nat → Option Char → List Char → List Char
  | 0, _, s => s
  | _ + 1, _, [] => []
  | f + 1, prev, s@(c :: t) =>
    match firstRest re prev s with
    | some rest =>
      let n := s.length - rest.length
      if n = 0 then repl ++ c :: subAllF re repl f (some c) t
      else repl ++ subAllF re repl f (some ((s.take n).getLast?.getD c)) rest
    | none => c :: subAllF re repl f (some c) t

def findallL (re : RE) (s : List Char) : List (List Char) :=
  scanAllF re (s.length + 1) none s

/-- `Pattern.findall(s)` (all of this module's patterns are group-free, so
Python returns the full matches). -/
def findall (re : RE) (s : String) : List String :=
  (findallL re s.toList).map List.asString

/-- `Pattern.sub(repl, s)`. -/
def subAll (re : RE) (repl : String) (s : String) : String :=
  (subAllF re repl.toList (s.toList.length + 1) none s.toList).asString

/-! ## The five compiled patterns (`class Patterns`) -/

namespace Patterns

def digitR : List (Char × Char) := [('0', '9')]
def hyphR : List (Char × Char) := [('-', '-')]
def cardSepR : List (Char × Char) := [('-', '-'), (' ', ' ')]
/-- `[A-Za-z0-9._%+-]` -/
def localR : List (Char × Char) :=
  [('A', 'Z'), ('a', 'z'), ('0', '9'), ('.', '.'), ('_', '_'), ('%', '%'), ('+', '+'), ('-', '-')]
/-- `[A-Za-z0-9.-]` -/
def domainR : List (Char × Char) :=
  [('A', 'Z'), ('a', 'z'), ('0', '9'), ('.', '.'), ('-', '-')]
/-- `[A-Z|a-z]` — the `|` inside the class is a literal character. -/
def tldR : List (Char × Char) := [('A', 'Z'), ('|', '|'), ('a', 'z')]

def seqL : List RE → RE
  | [] => .lit []
  | [r] => r
  | r :: rs => .seq r (seqL rs)

/-- `\b[A-Za-z0-9._%+-]+@[A-Za-z0-9.-]+\.[A-Z|a-z]{2,}\b` -/
def EMAIL : RE :=
  seqL [.wb, .rep localR 1 none, .lit ['@'], .rep domainR 1 none,
    .lit ['.'], .rep tldR 2 none, .wb]

/-- First alternative of `PHONE`: `\b(?:010|011|016|017|018|019)-?\d{3,4}-?\d{4}\b` -/
def MOBILE : RE :=
  seqL [.wb,
    .alt (.lit ('0' :: '1' :: '0' :: []))
      (.alt (.lit ('0' :: '1' :: '1' :: []))
        (.alt (.lit ('0' :: '1' :: '6' :: []))
          (.alt (.lit ('0' :: '1' :: '7' :: []))
            (.alt (.lit ('0' :: '1' :: '8' :: []))
              (.lit ('0' :: '1' :: '9' :: [])))))),
    .rep hyphR 0 (some 1), .rep digitR 3 (some 4),
    .rep hyphR 0 (some 1), .rep digitR 4 (some 4), .wb]

/-- Second alternative of `PHONE`: `\b0\d{1,2}-?\d{3,4}-?\d{4}\b` -/
def LANDLINE : RE :=
  seqL [.wb, .lit ['0'], .rep digitR 1 (some 2),
    .rep hyphR 0 (some 1), .rep digitR 3 (some 4),
    .rep hyphR 0 (some 1), .rep digitR 4 (some 4), .wb]

/-- The one compiled phone pattern: the two alternatives joined by `|`. -/
def PHONE : RE := .alt MOBILE LANDLINE

/-- `\b\d{6}-?\d{7}\b` -/
def SSN : RE :=
  seqL [.wb, .rep digitR 6 (some 6), .rep hyphR 0 (some 1), .rep digitR 7 (some 7), .wb]

/-- `\b\d{4}[- ]?\d{4}[- ]?\d{4}[- ]?\d{4}\b` -/
def CARD : RE :=
  seqL [.wb, .rep digitR 4 (some 4), .rep cardSepR 0 (some 1),
    .rep digitR 4 (some 4), .rep cardSepR 0 (some 1),
    .rep digitR 4 (some 4), .rep cardSepR 0 (some 1),
    .rep digitR 4 (some 4), .wb]

/-- `\b(?:\d{1,3}\.){3}\d{1,3}\b` -/
def IP_ADDRESS : RE :=
  seqL [.wb, .rep digitR 1 (some 3), .lit ['.'],
    .rep digitR 1 (some 3), .lit ['.'],
    .rep digitR 1 (some 3), .lit ['.'],
    .rep digitR 1 (some 3), .wb]

end Patterns

/-! ## Keyword containment (`keyword.lower() in text.lower()`) -/

def lowerStr (s : String) : String :=
  (s.toList.map Char.toLower).asString

def listStartsWith : List Char → List Char → Bool
  | [], _ => true
  | _ :: _, [] => false
  | c :: cs, d :: ds => c == d && listStartsWith cs ds

def listContainsSub (needle : List Char) : List Char → Bool
  | [] => listStartsWith needle []
  | hay@(_ :: t) => listStartsWith needle hay || listContainsSub needle t

/-- `keyword.lower() in text.lower()`: case-insensitive substring containment. -/
def keywordHits (keyword text : String) : Bool :=
  listContainsSub (lowerStr keyword).toList (lowerStr text).toList

/-! ## `FilterResult` and the filter -/

structure FilterResult where
  is_filtered : Bool
  masked_text : String
  detected_items : List String
  reason : String := ""
deriving DecidableEq, Repr

/-- The module-level `BLOCKED_KEYWORDS` list, in its source order. -/
def BLOCKED_KEYWORDS : List String :=
  ["해킹", "크랙", "불법", "도용", "관리자 비밀번호", "DB 접속정보", "API 키"]

def kwReason (keyword : String) : String :=
  "금지된 키워드가 포함되어 있습니다: " ++ keyword

def piiReason (n : Nat) : String :=
  "개인정보 " ++ toString n ++ "건 마스킹됨"

/-- `SecurityFilter.filter_message`.  The blocked-keyword list is the
`self.blocked_keywords` state of the filter instance, passed explicitly. -/
def filterMessage (blocked_keywords : List String) (text : String) : FilterResult :=
  match blocked_keywords.find? (fun keyword => keywordHits keyword text) with
  | some keyword =>
    { is_filtered := true, masked_text := text, detected_items := [keyword],
      reason := kwReason keyword }
  | none =>
    let emails := findall Patterns.EMAIL text
    let detected1 :=
      if emails.isEmpty then ([] : List String)
      else [] ++ emails.map (fun e => "이메일: " ++ e)
    let masked1 := if emails.isEmpty then text else subAll Patterns.EMAIL "[이메일]" text
    let phones := findall Patterns.PHONE text
    let detected2 :=
      if phones.isEmpty then detected1 else detected1 ++ phones.map (fun p => "전화번호: " ++ p)
    let masked2 := if phones.isEmpty then masked1 else subAll Patterns.PHONE "[전화번호]" masked1
    let ssns := findall Patterns.SSN text
    let detected3 :=
      if ssns.isEmpty then detected2 else detected2 ++ ssns.map (fun x => "주민번호: " ++ x)
    let masked3 := if ssns.isEmpty then masked2 else subAll Patterns.SSN "[주민번호]" masked2
    let cards := findall Patterns.CARD text
    let detected4 :=
      if cards.isEmpty then detected3 else detected3 ++ cards.map (fun x => "카드번호: " ++ x)
    let masked4 := if cards.isEmpty then masked3 else subAll Patterns.CARD "[카드번호]" masked3
    let ips := findall Patterns.IP_ADDRESS text
    let detected5 :=
      if ips.isEmpty then detected4 else detected4 ++ ips.map (fun x => "IP주소: " ++ x)
    let masked5 := if ips.isEmpty then masked4 else subAll Patterns.IP_ADDRESS "[IP주소]" masked4
    if detected5.isEmpty then
      { is_filtered := false, masked_text := text, detected_items := [], reason := "" }
    else
      { is_filtered := false, masked_text := masked5, detected_items := detected5,
        reason := piiReason detected5.length }

/-- `SecurityFilter.add_blocked_keyword`. -/
def add_blocked_keyword (blocked_keywords : List String) (keyword : String) : List String :=
  if keyword ∈ blocked_keywords then blocked_keywords else blocked_keywords ++ [keyword]

/-- `SecurityFilter.remove_blocked_keyword` (`list.remove` drops the first
occurrence). -/
def remove_blocked_keyword (blocked_keywords : List String) (keyword : String) : List String :=
  if keyword ∈ blocked_keywords then blocked_keywords.erase keyword else blocked_keywords

/-! ## The request boundary (`src/backend/app/api/chat.py`, `chat`) -/

structure ChatOutcome where
  aiResponse : String
  calledBackend : Bool
  backendInput : Option String
  persistedMessage : String
  persistedFiltered : Bool
deriving Repr

/-- The fixed refusal answer substituted when the filter blocks. -/
def REFUSAL_MESSAGE : String :=
  "죄송합니다. 보안 정책에 위배되는 내용이 포함되어 있어 응답할 수 없습니다."

/-- The filter-consuming part of the `chat` endpoint: run the filter, decide
between the refusal message and a generative call (with or without history),
and persist the masked message.  The generative backend and the stored
history are abstract parameters; `backendInput` records the text sent to the
backend, if any. -/
def chatHandle (blocked_keywords : List String) (message : String)
    (history : List (String × String))
    (genWithContext : String → List (String × String) → String)
    (gen : String → String) : ChatOutcome :=
  let filter_result := filterMessage blocked_keywords message
  let filtered_message := filter_result.masked_text
  let filtered := filter_result.is_filtered
  if filtered then
    { aiResponse := REFUSAL_MESSAGE, calledBackend := false, backendInput := none,
      persistedMessage := filtered_message, persistedFiltered := filtered }
  else
    { aiResponse :=
        if history.isEmpty then gen filtered_message
        else genWithContext filtered_message history,
      calledBackend := true, backendInput := some filtered_message,
      persistedMessage := filtered_message, persistedFiltered := filtered }

/-! ## Compositional views of the PII stage, for the theorems -/

def emailItems (t : String) : List String :=
  (findall Patterns.EMAIL t).map (fun x => "이메일: " ++ x)

def phoneItems (t : String) : List String :=
  (findall Patterns.PHONE t).map (fun x => "전화번호: " ++ x)

def ssnItems (t : String) : List String :=
  (findall Patterns.SSN t).map (fun x => "주민번호: " ++ x)

def cardItems (t : String) : List String :=
  (findall Patterns.CARD t).map (fun x => "카드번호: " ++ x)

def ipItems (t : String) : List String :=
  (findall Patterns.IP_ADDRESS t).map (fun x => "IP주소: " ++ x)

/-- All detected-item descriptions, in detector order, each detector applied
to the original text and keeping its own match order. -/
def detectedAll (t : String) : List String :=
  emailItems t ++ phoneItems t ++ ssnItems t ++ cardItems t ++ ipItems t

/-- One masking step: substitute the pattern in the running text when the
detector found matches in the original text `t`. -/
def maskStep (re : RE) (ph : String) (t m : String) : String :=
  if (findall re t).isEmpty then m else subAll re ph m

/-- The cumulative masking pipeline in detector order. -/
def maskedAll (t : String) : String :=
  maskStep Patterns.IP_ADDRESS "[IP주소]" t
    (maskStep Patterns.CARD "[카드번호]" t
      (maskStep Patterns.SSN "[주민번호]" t
        (maskStep Patterns.PHONE "[전화번호]" t
          (maskStep Patterns.EMAIL "[이메일]" t t))))

/-! ## Helper lemmas -/

theorem find?_split {α : Type} {p : α → Bool} :
    ∀ {l : List α} {a : α}, l.find? p = some a →
      ∃ l₁ l₂, l = l₁ ++ a :: l₂ ∧ p a = true ∧ ∀ x ∈ l₁, p x = false := by
  intro l
  induction l with
  | nil => intro a h; simp [List.find?] at h
  | cons b t ih =>
    intro a h
    cases hb : p b with
    | true =>
      rw [List.find?_cons_of_pos _ hb] at h
      refine ⟨[], t, ?_, ?_, ?_⟩ <;> simp_all
    | false =>
      rw [List.find?_cons_of_neg _ (by simp [hb])] at h
      obtain ⟨l₁, l₂, hl, hpa, hmiss⟩ := ih h
      refine ⟨b :: l₁, l₂, by simp [hl], hpa, ?_⟩
      intro x hx
      rcases List.mem_cons.mp hx with rfl | hx
      · exact hb
      · exact hmiss x hx

theorem filterMessage_blocked (b : List String) (t : String) (k : String)
    (hf : b.find? (fun kw => keywordHits kw t) = some k) :
    filterMessage b t =
      { is_filtered := true, masked_text := t, detected_items := [k], reason := kwReason k } := by
  unfold filterMessage
  rw [hf]

theorem filterMessage_none (b : List String) (t : String)
    (hf : b.find? (fun kw => keywordHits kw t) = none) :
    filterMessage b t =
      if (detectedAll t).isEmpty then
        { is_filtered := false, masked_text := t, detected_items := [], reason := "" }
      else
        { is_filtered := false, masked_text := maskedAll t, detected_items := detectedAll t,
          reason := piiReason (detectedAll t).length } := by
  unfold filterMessage
  rw [hf]
  simp only [detectedAll, maskedAll, maskStep, emailItems, phoneItems, ssnItems, cardItems,
    ipItems]
  by_cases h1 : findall Patterns.EMAIL t = [] <;>
    by_cases h2 : findall Patterns.PHONE t = [] <;>
      by_cases h3 : findall Patterns.SSN t = [] <;>
        by_cases h4 : findall Patterns.CARD t = [] <;>
          by_cases h5 : findall Patterns.IP_ADDRESS t = [] <;>
            simp [h1, h2, h3, h4, h5]

theorem filterMessage_isFiltered (b : List String) (t : String) :
    (filterMessage b t).is_filtered = (b.find? (fun kw => keywordHits kw t)).isSome := by
  cases hf : b.find? (fun kw => keywordHits kw t) with
  | some k => rw [filterMessage_blocked b t k hf]; rfl
  | none => rw [filterMessage_none b t hf]; split <;> rfl

/-- C1: an input containing some blocked keyword (case-insensitively) is
short-circuited on the first matching keyword in insertion order: the result
is `is_filtered = true`, the masked text is the unmodified input, the
detected items are exactly that one keyword, and the reason cites it; no PII
masking takes place. -/
theorem c1_keyword_first_match_short_circuit (blocked_keywords : List String) (text : String)
    (h : ∃ kw ∈ blocked_keywords, keywordHits kw text = true) :
    ∃ k l₁ l₂,
      blocked_keywords = l₁ ++ k :: l₂ ∧
      keywordHits k text = true ∧
      (∀ kw ∈ l₁, keywordHits kw text = false) ∧
      filterMessage blocked_keywords text =
        { is_filtered := true, masked_text := text, detected_items := [k],
          reason := kwReason k } := by
  have hs : (blocked_keywords.find? (fun kw => keywordHits kw text)).isSome = true :=
    List.find?_isSome.mpr h
  cases hf : blocked_keywords.find? (fun kw => keywordHits kw text) with
  | none => rw [hf] at hs; simp at hs
  | some k =>
    obtain ⟨l₁, l₂, hl, hpa, hmiss⟩ := find?_split hf
    exact ⟨k, l₁, l₂, hl, hpa, hmiss, filterMessage_blocked _ _ _ hf⟩

/-- Concrete instance of C1: the sample blocked input from the module's own
test list, blocked on the keyword 해킹. -/
theorem c1_keyword_first_match_short_circuit_witness :
    ∃ k l₁ l₂,
      BLOCKED_KEYWORDS = l₁ ++ k :: l₂ ∧
      keywordHits k "해킹 방법을 알려주세요." = true ∧
      (∀ kw ∈ l₁, keywordHits kw "해킹 방법을 알려주세요." = false) ∧
      filterMessage BLOCKED_KEYWORDS "해킹 방법을 알려주세요." =
        { is_filtered := true, masked_text := "해킹 방법을 알려주세요.",
          detected_items := [k], reason := kwReason k } :=
  c1_keyword_first_match_short_circuit BLOCKED_KEYWORDS "해킹 방법을 알려주세요."
    ⟨"해킹", by decide, by decide⟩

theorem detectedAll_eq_nil {t : String} (h : detectedAll t = []) :
    findall Patterns.EMAIL t = [] ∧ findall Patterns.PHONE t = [] ∧
    findall Patterns.SSN t = [] ∧ findall Patterns.CARD t = [] ∧
    findall Patterns.IP_ADDRESS t = [] := by
  simp only [detectedAll, emailItems, phoneItems, ssnItems, cardItems, ipItems,
    List.append_eq_nil, List.map_eq_nil_iff] at h
  exact ⟨h.1.1.1.1, h.1.1.1.2, h.1.1.2, h.1.2, h.2⟩

theorem maskedAll_of_no_match {t : String} (h : detectedAll t = []) : maskedAll t = t := by
  obtain ⟨h1, h2, h3, h4, h5⟩ := detectedAll_eq_nil h
  simp [maskedAll, maskStep, h1, h2, h3, h4, h5]

/-- C2: with no blocked keyword in the input, the result is never blocking:
`is_filtered = false`; when at least one detector matched, the reason states
the total number of masked items, and when none matched the result passes the
input through verbatim with empty detected items and empty reason. -/
theorem c2_no_keyword_never_blocks (blocked_keywords : List String) (text : String)
    (h : ∀ kw ∈ blocked_keywords, keywordHits kw text = false) :
    (filterMessage blocked_keywords text).is_filtered = false ∧
    (detectedAll text ≠ [] →
      (filterMessage blocked_keywords text).reason =
        piiReason (filterMessage blocked_keywords text).detected_items.length ∧
      (filterMessage blocked_keywords text).detected_items ≠ []) ∧
    (detectedAll text = [] →
      filterMessage blocked_keywords text =
        { is_filtered := false, masked_text := text, detected_items := [], reason := "" }) := by
  have hf : blocked_keywords.find? (fun kw => keywordHits kw text) = none :=
    List.find?_eq_none.mpr (by simpa using h)
  rw [filterMessage_none blocked_keywords text hf]
  by_cases hd : detectedAll text = []
  · simp [hd]
  · simp [hd, List.isEmpty_eq_false.mpr hd]

/-- Concrete instance of C2: the clean sample input from the module's test
list passes through verbatim. -/
theorem c2_no_keyword_never_blocks_witness :
    filterMessage BLOCKED_KEYWORDS "안전한 메시지입니다." =
      { is_filtered := false, masked_text := "안전한 메시지입니다.",
        detected_items := [], reason := "" } :=
  (c2_no_keyword_never_blocks BLOCKED_KEYWORDS "안전한 메시지입니다."
    (by decide)).2.2 (by decide)

/-- C3: with no blocked keyword, the detected items are the five detectors'
descriptions in the fixed detector order (each detector matched against the
original input, keeping its own left-to-right order), and the masked text is
the cumulative substitution pipeline in that order; in particular the spec's
sample input masks to "[이메일] [전화번호]" with the email description first. -/
theorem c3_detector_order_cumulative_masking (blocked_keywords : List String) (text : String)
    (h : ∀ kw ∈ blocked_keywords, keywordHits kw text = false) :
    (filterMessage blocked_keywords text).detected_items = detectedAll text ∧
    (filterMessage blocked_keywords text).masked_text = maskedAll text ∧
    filterMessage BLOCKED_KEYWORDS "test@example.com 010-1234-5678" =
      { is_filtered := false, masked_text := "[이메일] [전화번호]",
        detected_items := ["이메일: test@example.com", "전화번호: 010-1234-5678"],
        reason := piiReason 2 } := by
  have hf : blocked_keywords.find? (fun kw => keywordHits kw text) = none :=
    List.find?_eq_none.mpr (by simpa using h)
  rw [filterMessage_none blocked_keywords text hf]
  refine ⟨?_, ?_, by decide⟩ <;>
  · by_cases hd : detectedAll text = []
    · simp [hd, maskedAll_of_no_match hd]
    · simp [hd, List.isEmpty_eq_false.mpr hd]

/-- Concrete instance of C3 at the spec's sample input. -/
theorem c3_detector_order_cumulative_masking_witness :
    (filterMessage BLOCKED_KEYWORDS "test@example.com 010-1234-5678").detected_items =
      detectedAll "test@example.com 010-1234-5678" ∧
    (filterMessage BLOCKED_KEYWORDS "test@example.com 010-1234-5678").masked_text =
      maskedAll "test@example.com 010-1234-5678" ∧
    filterMessage BLOCKED_KEYWORDS "test@example.com 010-1234-5678" =
      { is_filtered := false, masked_text := "[이메일] [전화번호]",
        detected_items := ["이메일: test@example.com", "전화번호: 010-1234-5678"],
        reason := piiReason 2 } :=
  c3_detector_order_cumulative_masking BLOCKED_KEYWORDS
    "test@example.com 010-1234-5678" (by decide)

/-- C6: the filter is a total function of the input string — it is defined as
a Lean function, so it terminates and yields a `FilterResult` on every finite
input — and an input with no keyword hit and no pattern match is passed
through verbatim with zero matches. -/
theorem c6_total_passthrough (blocked_keywords : List String) (text : String)
    (hk : ∀ kw ∈ blocked_keywords, keywordHits kw text = false)
    (hp : findall Patterns.EMAIL text = [] ∧ findall Patterns.PHONE text = [] ∧
      findall Patterns.SSN text = [] ∧ findall Patterns.CARD text = [] ∧
      findall Patterns.IP_ADDRESS text = []) :
    filterMessage blocked_keywords text =
      { is_filtered := false, masked_text := text, detected_items := [], reason := "" } := by
  have hf : blocked_keywords.find? (fun kw => keywordHits kw text) = none :=
    List.find?_eq_none.mpr (by simpa using hk)
  have hd : detectedAll text = [] := by
    simp [detectedAll, emailItems, phoneItems, ssnItems, cardItems, ipItems,
      hp.1, hp.2.1, hp.2.2.1, hp.2.2.2.1, hp.2.2.2.2]
  rw [filterMessage_none blocked_keywords text hf]
  simp [hd]

/-- Concrete instance of C6 at the empty string. -/
theorem c6_total_passthrough_witness :
    filterMessage BLOCKED_KEYWORDS "" =
      { is_filtered := false, masked_text := "", detected_items := [], reason := "" } :=
  c6_total_passthrough BLOCKED_KEYWORDS "" (by decide) (by decide)

/-- C5: the chat boundary consumes the `FilterResult` so that (a) a blocked
result substitutes the fixed refusal message and calls no generative backend,
and (b) the persisted text and any text forwarded to a backend is the
filter's `masked_text`, never the raw input. -/
theorem c5_boundary_refusal_and_masked_persistence (blocked_keywords : List String)
    (message : String) (history : List (String × String))
    (genWithContext : String → List (String × String) → String) (gen : String → String) :
    ((filterMessage blocked_keywords message).is_filtered = true →
      (chatHandle blocked_keywords message history genWithContext gen).aiResponse =
        REFUSAL_MESSAGE ∧
      (chatHandle blocked_keywords message history genWithContext gen).calledBackend = false ∧
      (chatHandle blocked_keywords message history genWithContext gen).backendInput = none) ∧
    (chatHandle blocked_keywords message history genWithContext gen).persistedMessage =
      (filterMessage blocked_keywords message).masked_text ∧
    (∀ s, (chatHandle blocked_keywords message history genWithContext gen).backendInput =
        some s → s = (filterMessage blocked_keywords message).masked_text) := by
  unfold chatHandle
  by_cases hfil : (filterMessage blocked_keywords message).is_filtered = true
  · simp [hfil]
  · simp [hfil]

/-- Concrete instance of C5 at a blocked input and trivial backends. -/
theorem c5_boundary_refusal_and_masked_persistence_witness :
    (chatHandle BLOCKED_KEYWORDS "해킹 방법" [] (fun s _ => s) (fun s => s)).aiResponse =
      REFUSAL_MESSAGE ∧
    (chatHandle BLOCKED_KEYWORDS "해킹 방법" [] (fun s _ => s) (fun s => s)).calledBackend =
      false ∧
    (chatHandle BLOCKED_KEYWORDS "해킹 방법" [] (fun s _ => s) (fun s => s)).backendInput =
      none := by
  have h := (c5_boundary_refusal_and_masked_persistence BLOCKED_KEYWORDS "해킹 방법" []
    (fun s _ => s) (fun s => s)).1 (by decide)
  exact h

theorem mem_add_blocked_keyword (b : List String) (k : String) :
    k ∈ add_blocked_keyword b k := by
  unfold add_blocked_keyword
  by_cases h : k ∈ b
  · simp [h]
  · simp [h]

/-- C8: keyword-set mutations are visible to later filter calls: after
`add_blocked_keyword k`, any text containing `k` case-insensitively is
blocked; after `remove_blocked_keyword k`, the same text is no longer
blocked, provided no keyword remaining in the set matches it. -/
theorem c8_mutation_visibility (blocked_keywords : List String) (keyword text : String)
    (h : keywordHits keyword text = true) :
    (filterMessage (add_blocked_keyword blocked_keywords keyword) text).is_filtered = true ∧
    (∀ blocked₂ : List String,
      (∀ kw ∈ remove_blocked_keyword blocked₂ keyword, keywordHits kw text = false) →
      (filterMessage (remove_blocked_keyword blocked₂ keyword) text).is_filtered = false) := by
  constructor
  · rw [filterMessage_isFiltered]
    exact List.find?_isSome.mpr ⟨keyword, mem_add_blocked_keyword blocked_keywords keyword, h⟩
  · intro blocked₂ hmiss
    rw [filterMessage_isFiltered]
    rw [List.find?_eq_none.mpr (by simpa using hmiss)]
    rfl

/-- Concrete instance of C8 with the keyword 테스트 from the spec's example. -/
theorem c8_mutation_visibility_witness :
    (filterMessage (add_blocked_keyword BLOCKED_KEYWORDS "테스트") "이것은 테스트 문장").is_filtered =
      true ∧
    (filterMessage (remove_blocked_keyword BLOCKED_KEYWORDS "테스트") "이것은 테스트 문장").is_filtered =
      false :=
  ⟨(c8_mutation_visibility BLOCKED_KEYWORDS "테스트" "이것은 테스트 문장" (by decide)).1,
   (c8_mutation_visibility BLOCKED_KEYWORDS "테스트" "이것은 테스트 문장" (by decide)).2
     BLOCKED_KEYWORDS (by decide)⟩

/-- C9: the administrative operations are no-ops on their idempotent cases:
adding an already-present keyword and removing an absent keyword both leave
the keyword list unchanged (and, being total functions, raise nothing). -/
theorem c9_admin_idempotent (blocked_keywords : List String) (keyword : String) :
    (keyword ∈ blocked_keywords →
      add_blocked_keyword blocked_keywords keyword = blocked_keywords) ∧
    (keyword ∉ blocked_keywords →
      remove_blocked_keyword blocked_keywords keyword = blocked_keywords) := by
  constructor <;> intro h <;> simp [add_blocked_keyword, remove_blocked_keyword, h]

/-- Concrete instance of C9: re-adding 해킹 and removing an absent keyword
both leave `BLOCKED_KEYWORDS` unchanged. -/
theorem c9_admin_idempotent_witness :
    add_blocked_keyword BLOCKED_KEYWORDS "해킹" = BLOCKED_KEYWORDS ∧
    remove_blocked_keyword BLOCKED_KEYWORDS "테스트" = BLOCKED_KEYWORDS :=
  ⟨(c9_admin_idempotent BLOCKED_KEYWORDS "해킹").1 (by decide),
   (c9_admin_idempotent BLOCKED_KEYWORDS "테스트").2 (by decide)⟩

theorem keywordHits_empty_needle (text : String) : keywordHits "" text = true := by
  unfold keywordHits
  cases h : (lowerStr text).toList with
  | nil => rfl
  | cons c t => simp [listContainsSub, listStartsWith, lowerStr]

/-- C10: a blocked-keyword set containing the empty string (which
`add_blocked_keyword ""` permits) blocks every input, the empty input
included, because the case-insensitive substring test accepts the empty
needle in any text. -/
theorem c10_empty_keyword_blocks_everything (blocked_keywords : List String) (text : String)
    (h : "" ∈ blocked_keywords) :
    (filterMessage blocked_keywords text).is_filtered = true ∧
    "" ∈ add_blocked_keyword blocked_keywords "" := by
  refine ⟨?_, mem_add_blocked_keyword blocked_keywords ""⟩
  rw [filterMessage_isFiltered]
  exact List.find?_isSome.mpr ⟨"", h, keywordHits_empty_needle text⟩

/-- Concrete instance of C10 at the empty input text. -/
theorem c10_empty_keyword_blocks_everything_witness :
    (filterMessage [""] "").is_filtered = true ∧ "" ∈ add_blocked_keyword [""] "" :=
  c10_empty_keyword_blocks_everything [""] "" (by decide)

/-! ## Language characterization of the phone pattern (C7) -/

/-- Full-match acceptance: the continuation accepts exactly when the whole
input has been consumed. -/
def fullK : Option Char → List Char → Option (List Char) :=
  fun _ rest => if rest.isEmpty then some [] else none

/-- The pattern can match the string `l` in its entirety, standing alone. -/
def matchesWhole (re : RE) (l : List Char) : Bool :=
  (matchC re none l fullK).isSome

def isDigitCh (c : Char) : Bool := '0' ≤ c && c ≤ '9'

theorem isSome_fullK {p : Option Char} {s : List Char} :
    (fullK p s).isSome = true ↔ s = [] := by
  cases s <;> simp [fullK]

theorem stripLit_eq_some : ∀ {cs s rest : List Char},
    stripLit cs s = some rest ↔ s = cs ++ rest := by
  intro cs
  induction cs with
  | nil => intro s rest; simp [stripLit]
  | cons c cs ih =>
    intro s rest
    cases s with
    | nil => simp [stripLit]
    | cons d t =>
      by_cases hcd : c == d
      · rw [show c = d from by simpa using hcd]
        simp [stripLit, ih]
      · simp [stripLit, hcd]
        intro hdc
        exact absurd (by simp [hdc]) hcd

theorem matchC_seq {a b : RE} {p : Option Char} {s : List Char}
    {k : Option Char → List Char → Option (List Char)} :
    matchC (.seq a b) p s k = matchC a p s (fun q t => matchC b q t k) := rfl

theorem isSome_wb {p : Option Char} {s : List Char}
    {k : Option Char → List Char → Option (List Char)} :
    (matchC .wb p s k).isSome = true ↔
      boundary p s.head? = true ∧ (k p s).isSome = true := by
  by_cases hb : boundary p s.head? = true <;> simp [matchC, hb]

theorem isSome_alt {a b : RE} {p : Option Char} {s : List Char}
    {k : Option Char → List Char → Option (List Char)} :
    (matchC (.alt a b) p s k).isSome = true ↔
      (matchC a p s k).isSome = true ∨ (matchC b p s k).isSome = true := by
  cases hl : matchC a p s k <;> simp [matchC, hl, Option.orElse]

theorem isSome_lit {cs : List Char} {p : Option Char} {s : List Char}
    {k : Option Char → List Char → Option (List Char)} :
    (matchC (.lit cs) p s k).isSome = true ↔
      ∃ rest, s = cs ++ rest ∧ (k (cs.getLast? <|> p) rest).isSome = true := by
  show (match stripLit cs s with
    | some rest => k (cs.getLast? <|> p) rest
    | none => none).isSome = true ↔ _
  cases hstrip : stripLit cs s with
  | some rest =>
    simp only [hstrip]
    rw [stripLit_eq_some] at hstrip
    constructor
    · intro hk; exact ⟨rest, hstrip, hk⟩
    · rintro ⟨rest', hr, hk⟩
      have : rest = rest' := by
        subst hstrip
        exact List.append_cancel_left hr
      rwa [this]
  | none =>
    simp only [hstrip, Option.isSome_none]
    constructor
    · intro h; exact absurd h (by simp)
    · rintro ⟨rest', hr, hk⟩
      rw [← stripLit_eq_some] at hr
      rw [hr] at hstrip
      exact absurd hstrip (by simp)

def prevAt (p : Option Char) (s : List Char) : Nat → Option Char
  | 0 => p
  | n + 1 => some ((s.get? n).getD ' ')

theorem isSome_repGo {p : Option Char} {s : List Char} {lo : Nat}
    {k : Option Char → List Char → Option (List Char)} :
    ∀ {m : Nat}, (repGo p s lo k m).isSome = true ↔
      ∃ n, lo ≤ n ∧ n ≤ m ∧ (k (prevAt p s n) (s.drop n)).isSome = true := by
  intro m
  induction m with
  | zero =>
    by_cases hlo : lo = 0
    · subst hlo
      simp [repGo, prevAt]
    · simp [repGo, hlo]
      intro x h1 h2
      omega
  | succ m ih =>
    by_cases hlo : lo ≤ m + 1
    · rw [repGo]
      rw [if_pos (by simpa using hlo)]
      constructor
      · intro h
        rcases Option.isSome_iff_exists.mp h with ⟨r, hr⟩
        rcases (Option.orElse_eq_some _ _ _).mp hr with hfst | ⟨_, hsnd⟩
        · exact ⟨m + 1, hlo, le_refl _, by rw [prevAt, hfst]; rfl⟩
        · obtain ⟨n, h1, h2, h3⟩ := ih.mp (by simp [hsnd])
          exact ⟨n, h1, by omega, h3⟩
      · rintro ⟨n, h1, h2, h3⟩
        rcases Nat.lt_or_ge n (m + 1) with hn | hn
        · have : (repGo p s lo k m).isSome = true := ih.mpr ⟨n, h1, by omega, h3⟩
          rcases Option.isSome_iff_exists.mp this with ⟨r, hr⟩
          cases hfst : k (some ((s.get? m).getD ' ')) (s.drop (m + 1))
          · simp [hfst, hr]
          · simp [hfst]
        · have hn' : n = m + 1 := by omega
          subst hn'
          cases hfst : k (some ((s.get? m).getD ' ')) (s.drop (m + 1))
          · rw [prevAt] at h3
            rw [hfst] at h3
            simp at h3
          · simp [hfst]
    · rw [repGo]
      rw [if_neg (by simpa using hlo)]
      simp
      intro n h1 h2
      omega

theorem leadCount_le_length {rs : List (Char × Char)} : ∀ {s : List Char},
    leadCount rs s ≤ s.length := by
  intro s
  induction s with
  | nil => simp [leadCount]
  | cons c t ih =>
    by_cases h : memClass rs c = true <;> simp [leadCount, h]
    omega


theorem leadCount_take {rs : List (Char × Char)} : ∀ {s : List Char} {n : Nat},
    n ≤ leadCount rs s → ∀ c ∈ s.take n, memClass rs c = true := by
  intro s
  induction s with
  | nil => intro n _ c hc; simp at hc
  | cons d t ih =>
    intro n hn c hc
    cases n with
    | zero => simp at hc
    | succ n =>
      by_cases hd : memClass rs d = true
      · rw [leadCount, if_pos hd] at hn
        rcases (List.mem_cons).mp (by simpa using hc) with rfl | hct
        · exact hd
        · exact ih (by omega) c hct
      · rw [leadCount, if_neg hd] at hn
        omega

theorem leadCount_ge_of_all {rs : List (Char × Char)} : ∀ {u v : List Char},
    (∀ c ∈ u, memClass rs c = true) → u.length ≤ leadCount rs (u ++ v) := by
  intro u
  induction u with
  | nil => intro v _; simp
  | cons c t ih =>
    intro v h
    have hc : memClass rs c = true := h c (by simp)
    simp only [List.cons_append, leadCount, if_pos hc, List.length_cons, List.append_eq]
    have := @ih v (fun x hx => h x (by simp [hx]))
    omega

theorem prevAt_take {p : Option Char} {s : List Char} {n : Nat} (hn : n ≤ s.length) :
    prevAt p s n = ((s.take n).getLast? <|> p) := by
  cases n with
  | zero => simp [prevAt]
  | succ n =>
    rw [prevAt]
    have hlt : n < s.length := by omega
    rw [List.getLast?_eq_getElem?]
    rw [List.length_take]
    have hmin : min (n + 1) s.length = n + 1 := by omega
    rw [hmin]
    simp only [Nat.add_sub_cancel, List.getElem?_take, if_pos (Nat.lt_succ_self n)]
    rw [List.get?_eq_getElem?]
    rcases List.getElem?_eq_some_iff.mpr ⟨hlt, rfl⟩ with h
    rw [h]
    rfl

theorem prevAt_append {p : Option Char} {u v : List Char} :
    prevAt p (u ++ v) u.length = (u.getLast? <|> p) := by
  have : prevAt p (u ++ v) u.length = (((u ++ v).take u.length).getLast? <|> p) :=
    prevAt_take (by simp)
  rwa [List.take_left] at this

theorem isSome_rep {rs : List (Char × Char)} {lo cap : Nat} {p : Option Char} {s : List Char}
    {k : Option Char → List Char → Option (List Char)} :
    (matchC (.rep rs lo (some cap)) p s k).isSome = true ↔
      ∃ u v, s = u ++ v ∧ (∀ c ∈ u, memClass rs c = true) ∧ lo ≤ u.length ∧
        u.length ≤ cap ∧ (k (u.getLast? <|> p) v).isSome = true := by
  show (repGo p s lo k (min (leadCount rs s) cap)).isSome = true ↔ _
  rw [isSome_repGo]
  constructor
  · rintro ⟨n, h1, h2, h3⟩
    have hcnt : n ≤ leadCount rs s := le_trans h2 (min_le_left _ _)
    have hcap : n ≤ cap := le_trans h2 (min_le_right _ _)
    have hlen : n ≤ s.length := le_trans hcnt leadCount_le_length
    refine ⟨s.take n, s.drop n, (List.take_append_drop n s).symm, leadCount_take hcnt, ?_, ?_, ?_⟩
    · rw [List.length_take]; omega
    · rw [List.length_take]; omega
    · rwa [prevAt_take hlen] at h3
  · rintro ⟨u, v, rfl, hall, hlo, hcap, hk⟩
    refine ⟨u.length, hlo, ?_, ?_⟩
    · exact le_min (leadCount_ge_of_all hall) hcap
    · rwa [prevAt_append, List.drop_left]

theorem memClass_hyphR_iff {c : Char} : memClass Patterns.hyphR c = true ↔ c = '-' := by
  simp [memClass, Patterns.hyphR]
  constructor
  · intro h; exact le_antisymm h.2 h.1
  · intro h; subst h; exact ⟨le_refl _, le_refl _⟩

theorem memClass_digitR_iff {c : Char} : memClass Patterns.digitR c = true ↔ isDigitCh c = true := by
  simp [memClass, Patterns.digitR, isDigitCh]

/-- An optional hyphen: a repetition of `[-]` of length at most one. -/
def optHyphen (h : List Char) : Prop := h = [] ∨ h = ['-']

theorem hyphOpt_iff {u : List Char} :
    ((∀ c ∈ u, memClass Patterns.hyphR c = true) ∧ u.length ≤ 1) ↔ optHyphen u := by
  constructor
  · rintro ⟨hall, hlen⟩
    match u, hlen with
    | [], _ => exact Or.inl rfl
    | [c], _ =>
      have := memClass_hyphR_iff.mp (hall c (by simp))
      exact Or.inr (by simp [this])
  · rintro (rfl | rfl)
    · exact ⟨by simp, by simp⟩
    · refine ⟨?_, by simp⟩
      intro c hc
      rw [List.mem_singleton] at hc
      subst hc
      exact memClass_hyphR_iff.mpr rfl

theorem digit_isWordChar {c : Char} (h : isDigitCh c = true) : isWordChar c = true := by
  simp [isDigitCh] at h
  have : Char.isDigit c = true := by
    simp [Char.isDigit]
    exact h
  simp [isWordChar, this]

theorem boundary_some_none {c : Char} : boundary (some c) none = isWordChar c := by
  cases h : isWordChar c <;> simp [boundary, h]

theorem boundary_none_some {c : Char} : boundary none (some c) = isWordChar c := by
  cases h : isWordChar c <;> simp [boundary, h]

/-- The mobile alternative's shape, as the spec words it: one of the six
prefixes, an optional hyphen, 3–4 digits, an optional hyphen, 4 digits. -/
def MobileShape (l : List Char) : Prop :=
  ∃ pre h1 d1 h2 d2,
    (pre = ['0', '1', '0'] ∨ pre = ['0', '1', '1'] ∨ pre = ['0', '1', '6'] ∨
      pre = ['0', '1', '7'] ∨ pre = ['0', '1', '8'] ∨ pre = ['0', '1', '9']) ∧
    l = pre ++ h1 ++ d1 ++ h2 ++ d2 ∧ optHyphen h1 ∧
    (∀ c ∈ d1, isDigitCh c = true) ∧ (d1.length = 3 ∨ d1.length = 4) ∧ optHyphen h2 ∧
    (∀ c ∈ d2, isDigitCh c = true) ∧ d2.length = 4

theorem getLast?_orElse_of_ne_nil {u : List Char} (h : u ≠ []) (x : Option Char) :
    (u.getLast? <|> x) = some (u.getLast h) := by
  rw [List.getLast?_eq_getLast _ h]
  exact Option.some_orElse _ _

theorem mobileBody_iff (prev0 : Option Char) (rest : List Char) :
    (∃ u v, rest = u ++ v ∧ (∀ c ∈ u, memClass Patterns.hyphR c = true) ∧
      0 ≤ u.length ∧ u.length ≤ 1 ∧
      ∃ u1 v1, v = u1 ++ v1 ∧ (∀ c ∈ u1, memClass Patterns.digitR c = true) ∧
        3 ≤ u1.length ∧ u1.length ≤ 4 ∧
        ∃ u2 v', v1 = u2 ++ v' ∧ (∀ c ∈ u2, memClass Patterns.hyphR c = true) ∧
          0 ≤ u2.length ∧ u2.length ≤ 1 ∧
          ∃ u3 v2, v' = u3 ++ v2 ∧ (∀ c ∈ u3, memClass Patterns.digitR c = true) ∧
            4 ≤ u3.length ∧ u3.length ≤ 4 ∧
            boundary (u3.getLast? <|> u2.getLast? <|> u1.getLast? <|> u.getLast? <|> prev0)
              v2.head? = true ∧ v2 = []) ↔
    ∃ h1 d1 h2 d2, rest = h1 ++ d1 ++ h2 ++ d2 ∧ optHyphen h1 ∧
      (∀ c ∈ d1, isDigitCh c = true) ∧ (d1.length = 3 ∨ d1.length = 4) ∧ optHyphen h2 ∧
      (∀ c ∈ d2, isDigitCh c = true) ∧ d2.length = 4 := by
  constructor
  · rintro ⟨u, v, rfl, hu, -, hulen, u1, v1, rfl, hd1, h3, h4, u2, v', rfl, hu2, -, hu2len,
      u3, v2, rfl, hd3, h44, h44', -, rfl⟩
    refine ⟨u, u1, u2, u3, by simp [List.append_assoc], hyphOpt_iff.mp ⟨hu, hulen⟩,
      fun c hc => memClass_digitR_iff.mp (hd1 c hc), by omega,
      hyphOpt_iff.mp ⟨hu2, hu2len⟩, fun c hc => memClass_digitR_iff.mp (hd3 c hc), by omega⟩
  · rintro ⟨h1, d1, h2, d2, rfl, hh1, hd1, hlen1, hh2, hd2, hlen2⟩
    have hne : d2 ≠ [] := by
      intro h; rw [h] at hlen2; simp at hlen2
    refine ⟨h1, d1 ++ h2 ++ d2, by simp [List.append_assoc], (hyphOpt_iff.mpr hh1).1,
      Nat.zero_le _, (hyphOpt_iff.mpr hh1).2,
      d1, h2 ++ d2, by simp [List.append_assoc],
      fun c hc => memClass_digitR_iff.mpr (hd1 c hc), by omega, by omega,
      h2, d2, rfl, (hyphOpt_iff.mpr hh2).1, Nat.zero_le _, (hyphOpt_iff.mpr hh2).2,
      d2, [], by simp, fun c hc => memClass_digitR_iff.mpr (hd2 c hc), by omega, by omega,
      ?_, rfl⟩
    rw [getLast?_orElse_of_ne_nil hne]
    rw [show ([] : List Char).head? = none from rfl]
    rw [boundary_some_none]
    exact digit_isWordChar (hd2 _ (List.getLast_mem hne))

theorem matchesWhole_MOBILE_iff (l : List Char) :
    matchesWhole Patterns.MOBILE l = true ↔ MobileShape l := by
  simp only [matchesWhole, Patterns.MOBILE, Patterns.seqL, matchC_seq, isSome_wb, isSome_alt,
    isSome_lit, isSome_rep, isSome_fullK, mobileBody_iff]
  constructor
  · rintro ⟨-, (⟨rest, hl, hrest⟩ | ⟨rest, hl, hrest⟩ | ⟨rest, hl, hrest⟩ |
      ⟨rest, hl, hrest⟩ | ⟨rest, hl, hrest⟩ | ⟨rest, hl, hrest⟩)⟩ <;>
      obtain ⟨h1, d1, h2, d2, hr, p1, p2, p3, p4, p5, p6⟩ := hrest <;>
      subst hl <;> subst hr
    · exact ⟨['0', '1', '0'], h1, d1, h2, d2, by simp, by simp [List.append_assoc],
        p1, p2, p3, p4, p5, p6⟩
    · exact ⟨['0', '1', '1'], h1, d1, h2, d2, by simp, by simp [List.append_assoc],
        p1, p2, p3, p4, p5, p6⟩
    · exact ⟨['0', '1', '6'], h1, d1, h2, d2, by simp, by simp [List.append_assoc],
        p1, p2, p3, p4, p5, p6⟩
    · exact ⟨['0', '1', '7'], h1, d1, h2, d2, by simp, by simp [List.append_assoc],
        p1, p2, p3, p4, p5, p6⟩
    · exact ⟨['0', '1', '8'], h1, d1, h2, d2, by simp, by simp [List.append_assoc],
        p1, p2, p3, p4, p5, p6⟩
    · exact ⟨['0', '1', '9'], h1, d1, h2, d2, by simp, by simp [List.append_assoc],
        p1, p2, p3, p4, p5, p6⟩
  · rintro ⟨pre, h1, d1, h2, d2, hpre, rfl, p1, p2, p3, p4, p5, p6⟩
    constructor
    · rcases hpre with rfl | rfl | rfl | rfl | rfl | rfl <;>
      · rw [show ((['0', '1', _] ++ h1 ++ d1 ++ h2 ++ d2).head? : Option Char) = some '0' from rfl]
        rw [boundary_none_some]
        decide
    · rcases hpre with rfl | rfl | rfl | rfl | rfl | rfl
      · exact Or.inl ⟨h1 ++ d1 ++ h2 ++ d2, by simp [List.append_assoc],
          h1, d1, h2, d2, rfl, p1, p2, p3, p4, p5, p6⟩
      · exact Or.inr (Or.inl ⟨h1 ++ d1 ++ h2 ++ d2, by simp [List.append_assoc],
          h1, d1, h2, d2, rfl, p1, p2, p3, p4, p5, p6⟩)
      · exact Or.inr (Or.inr (Or.inl ⟨h1 ++ d1 ++ h2 ++ d2, by simp [List.append_assoc],
          h1, d1, h2, d2, rfl, p1, p2, p3, p4, p5, p6⟩))
      · exact Or.inr (Or.inr (Or.inr (Or.inl ⟨h1 ++ d1 ++ h2 ++ d2,
          by simp [List.append_assoc], h1, d1, h2, d2, rfl, p1, p2, p3, p4, p5, p6⟩)))
      · exact Or.inr (Or.inr (Or.inr (Or.inr (Or.inl ⟨h1 ++ d1 ++ h2 ++ d2,
          by simp [List.append_assoc], h1, d1, h2, d2, rfl, p1, p2, p3, p4, p5, p6⟩))))
      · exact Or.inr (Or.inr (Or.inr (Or.inr (Or.inr ⟨h1 ++ d1 ++ h2 ++ d2,
          by simp [List.append_assoc], h1, d1, h2, d2, rfl, p1, p2, p3, p4, p5, p6⟩))))

/-- The landline alternative's shape as the code has it: a literal `0`, then
1–2 further digits, an optional hyphen, 3–4 digits, an optional hyphen, and 4
digits. -/
def CodeLandlineShape (l : List Char) : Prop :=
  ∃ g1 h1 g2 h2 g3, l = '0' :: (g1 ++ h1 ++ g2 ++ h2 ++ g3) ∧
    (∀ c ∈ g1, isDigitCh c = true) ∧ (g1.length = 1 ∨ g1.length = 2) ∧ optHyphen h1 ∧
    (∀ c ∈ g2, isDigitCh c = true) ∧ (g2.length = 3 ∨ g2.length = 4) ∧ optHyphen h2 ∧
    (∀ c ∈ g3, isDigitCh c = true) ∧ g3.length = 4

theorem matchesWhole_LANDLINE_iff (l : List Char) :
    matchesWhole Patterns.LANDLINE l = true ↔ CodeLandlineShape l := by
  simp only [matchesWhole, Patterns.LANDLINE, Patterns.seqL, matchC_seq, isSome_wb, isSome_alt,
    isSome_lit, isSome_rep, isSome_fullK]
  constructor
  · rintro ⟨-, rest, hl, u, v, rfl, q1, q2, q3, u1, v1, rfl, r1, -, r3, u2, v2, rfl,
      s1, s2, s3, u3, v3, rfl, t1, -, t3, u4, v4, rfl, w1, w2, w3, -, rfl⟩
    subst hl
    exact ⟨u, u1, u2, u3, u4, by simp [List.append_assoc],
      fun c hc => memClass_digitR_iff.mp (q1 c hc), by omega, hyphOpt_iff.mp ⟨r1, r3⟩,
      fun c hc => memClass_digitR_iff.mp (s1 c hc), by omega, hyphOpt_iff.mp ⟨t1, t3⟩,
      fun c hc => memClass_digitR_iff.mp (w1 c hc), by omega⟩
  · rintro ⟨g1, h1, g2, h2, g3, rfl, p1, p2, p3, p4, p5, p6, p7, p8⟩
    have hne : g3 ≠ [] := by
      intro h; rw [h] at p8; simp at p8
    refine ⟨?_, g1 ++ h1 ++ g2 ++ h2 ++ g3, by simp [List.append_assoc],
      g1, h1 ++ g2 ++ h2 ++ g3, by simp [List.append_assoc],
      fun c hc => memClass_digitR_iff.mpr (p1 c hc), by omega, by omega,
      h1, g2 ++ h2 ++ g3, by simp [List.append_assoc],
      (hyphOpt_iff.mpr p3).1, Nat.zero_le _, (hyphOpt_iff.mpr p3).2,
      g2, h2 ++ g3, by simp [List.append_assoc],
      fun c hc => memClass_digitR_iff.mpr (p4 c hc), by omega, by omega,
      h2, g3, rfl, (hyphOpt_iff.mpr p6).1, Nat.zero_le _, (hyphOpt_iff.mpr p6).2,
      g3, [], by simp, fun c hc => memClass_digitR_iff.mpr (p7 c hc), by omega, by omega,
      ?_, rfl⟩
    · rw [show (('0' :: (g1 ++ h1 ++ g2 ++ h2 ++ g3)).head? : Option Char) = some '0' from rfl]
      rw [boundary_none_some]
      decide
    · rw [getLast?_orElse_of_ne_nil hne]
      rw [show ([] : List Char).head? = none from rfl]
      rw [boundary_some_none]
      exact digit_isWordChar (p7 _ (List.getLast_mem hne))

/-- The landline shape as the spec/claim words it: "1–2 leading digits, then
3–4 digits, then 4 digits with optional hyphens" (no mandatory leading `0`). -/
def ClaimedLandlineShape (l : List Char) : Prop :=
  ∃ g1 h1 g2 h2 g3, l = g1 ++ h1 ++ g2 ++ h2 ++ g3 ∧
    (∀ c ∈ g1, isDigitCh c = true) ∧ (g1.length = 1 ∨ g1.length = 2) ∧ optHyphen h1 ∧
    (∀ c ∈ g2, isDigitCh c = true) ∧ (g2.length = 3 ∨ g2.length = 4) ∧ optHyphen h2 ∧
    (∀ c ∈ g3, isDigitCh c = true) ∧ g3.length = 4

/-- C7, counterexample: `"2-123-4567"` has the claimed landline shape (one
leading digit, three digits, four digits, hyphens), yet the compiled phone
pattern does not match it — the pattern's landline alternative demands a
leading `0` and then 1–2 further digits. -/
theorem c7_phone_pattern_counterexample :
    ClaimedLandlineShape ("2-123-4567".toList) ∧
    matchesWhole Patterns.PHONE ("2-123-4567".toList) = false := by
  constructor
  · exact ⟨['2'], ['-'], ['1', '2', '3'], ['-'], ['4', '5', '6', '7'], by decide,
      by decide, by decide, Or.inr rfl, by decide, by decide, Or.inr rfl, by decide, by decide⟩
  · decide

/-- C7, amended: the phone pattern's language is exactly the mobile shape
(prefix 010/011/016/017/018/019, optional hyphen, 3–4 digits, optional
hyphen, 4 digits) or the code's landline shape (a leading `0`, 1–2 further
digits, optional hyphen, 3–4 digits, optional hyphen, 4 digits); both
alternatives live in one compiled pattern, and at every position the first
(mobile) alternative is tried first, per standard alternation semantics. -/
theorem c7_phone_pattern_language_amended :
    (∀ l : List Char,
      matchesWhole Patterns.PHONE l = true ↔ MobileShape l ∨ CodeLandlineShape l) ∧
    Patterns.PHONE = RE.alt Patterns.MOBILE Patterns.LANDLINE ∧
    (∀ (prev : Option Char) (s : List Char) (k : Option Char → List Char → Option (List Char)),
      matchC Patterns.PHONE prev s k =
        (matchC Patterns.MOBILE prev s k <|> matchC Patterns.LANDLINE prev s k)) := by
  refine ⟨?_, rfl, fun _ _ _ => rfl⟩
  intro l
  rw [show matchesWhole Patterns.PHONE l =
    (matchC (RE.alt Patterns.MOBILE Patterns.LANDLINE) none l fullK).isSome from rfl]
  rw [isSome_alt]
  rw [show (matchC Patterns.MOBILE none l fullK).isSome = true ↔
      matchesWhole Patterns.MOBILE l = true from Iff.rfl]
  rw [show (matchC Patterns.LANDLINE none l fullK).isSome = true ↔
      matchesWhole Patterns.LANDLINE l = true from Iff.rfl]
  rw [matchesWhole_MOBILE_iff, matchesWhole_LANDLINE_iff]

/-! ## A reachability semantics for the matcher (C4) -/

/-- `Reach re p s q rest`: starting before `s` with previous character `p`,
the pattern can consume a prefix of `s`, ending with previous character `q`
and remainder `rest`.  This is the declarative counterpart of `matchC`'s
backtracking search. -/
inductive Reach : RE → Option Char → List Char → Option Char → List Char → Prop where
  | lit {cs p s rest} (h : stripLit cs s = some rest) :
      Reach (.lit cs) p s (cs.getLast? <|> p) rest
  | seq {a b p s q t q' t'} (ha : Reach a p s q t) (hb : Reach b q t q' t') :
      Reach (.seq a b) p s q' t'
  | altL {a b p s q t} (ha : Reach a p s q t) : Reach (.alt a b) p s q t
  | altR {a b p s q t} (hb : Reach b p s q t) : Reach (.alt a b) p s q t
  | wb {p s} (h : boundary p s.head? = true) : Reach .wb p s p s
  | rep {rs lo hi p s} (n : Nat) (h1 : lo ≤ n)
      (h2 : n ≤ match hi with
        | some c => min (leadCount rs s) c
        | none => leadCount rs s) :
      Reach (.rep rs lo hi) p s (prevAt p s n) (s.drop n)

theorem repGo_eq_some {p : Option Char} {s : List Char} {lo : Nat}
    {k : Option Char → List Char → Option (List Char)} :
    ∀ {m : Nat} {res : List Char}, repGo p s lo k m = some res →
      ∃ n, lo ≤ n ∧ n ≤ m ∧ k (prevAt p s n) (s.drop n) = some res := by
  intro m
  induction m with
  | zero =>
    intro res h
    rw [repGo] at h
    by_cases hlo : lo = 0
    · rw [if_pos (by simpa using hlo)] at h
      exact ⟨0, by omega, by omega, h⟩
    · rw [if_neg (by simpa using hlo)] at h
      exact absurd h (by simp)
  | succ m ih =>
    intro res h
    rw [repGo] at h
    by_cases hlo : lo ≤ m + 1
    · rw [if_pos (by simpa using hlo)] at h
      rcases (Option.orElse_eq_some _ _ _).mp h with hfst | ⟨-, hsnd⟩
      · exact ⟨m + 1, hlo, le_refl _, by rw [prevAt]; exact hfst⟩
      · obtain ⟨n, h1, h2, h3⟩ := ih hsnd
        exact ⟨n, h1, by omega, h3⟩
    · rw [if_neg (by simpa using hlo)] at h
      exact absurd h (by simp)

theorem isSome_orElse_left {α : Type} (x y : Option α) (h : x.isSome = true) :
    (x <|> y).isSome = true := by
  cases x <;> simp_all [Option.orElse]

theorem isSome_orElse_right {α : Type} (x y : Option α) (h : y.isSome = true) :
    (x <|> y).isSome = true := by
  cases x <;> simp_all [Option.orElse]

/-- Soundness: a successful run of the matcher passes through a reachable
state that its continuation accepted. -/
theorem matchC_sound : ∀ {re : RE} {p : Option Char} {s : List Char}
    {k : Option Char → List Char → Option (List Char)} {res : List Char},
    matchC re p s k = some res → ∃ q rest, Reach re p s q rest ∧ k q rest = some res := by
  intro re
  induction re with
  | lit cs =>
    intro p s k res h
    rw [matchC] at h
    cases hstrip : stripLit cs s with
    | some rest =>
      rw [hstrip] at h
      exact ⟨cs.getLast? <|> p, rest, Reach.lit hstrip, h⟩
    | none => rw [hstrip] at h; exact absurd h (by simp)
  | seq a b iha ihb =>
    intro p s k res h
    rw [matchC] at h
    obtain ⟨q, t, hra, hk⟩ := iha h
    obtain ⟨q', t', hrb, hk'⟩ := ihb hk
    exact ⟨q', t', Reach.seq hra hrb, hk'⟩
  | alt a b iha ihb =>
    intro p s k res h
    rw [matchC] at h
    rcases (Option.orElse_eq_some _ _ _).mp h with hfst | ⟨-, hsnd⟩
    · obtain ⟨q, t, hra, hk⟩ := iha hfst
      exact ⟨q, t, Reach.altL hra, hk⟩
    · obtain ⟨q, t, hrb, hk⟩ := ihb hsnd
      exact ⟨q, t, Reach.altR hrb, hk⟩
  | rep rs lo hi =>
    intro p s k res h
    cases hi with
    | some c =>
      rw [show matchC (.rep rs lo (some c)) p s k =
        repGo p s lo k (min (leadCount rs s) c) from rfl] at h
      obtain ⟨n, h1, h2, h3⟩ := repGo_eq_some h
      exact ⟨prevAt p s n, s.drop n, Reach.rep n h1 h2, h3⟩
    | none =>
      rw [show matchC (.rep rs lo none) p s k =
        repGo p s lo k (leadCount rs s) from rfl] at h
      obtain ⟨n, h1, h2, h3⟩ := repGo_eq_some h
      exact ⟨prevAt p s n, s.drop n, Reach.rep n h1 h2, h3⟩
  | wb =>
    intro p s k res h
    rw [show matchC RE.wb p s k = if boundary p s.head? then k p s else none from rfl] at h
    by_cases hb : boundary p s.head? = true
    · rw [if_pos hb] at h
      exact ⟨p, s, Reach.wb hb, h⟩
    · rw [if_neg hb] at h
      exact absurd h (by simp)

/-- Completeness: a reachable state whose continuation succeeds makes the
matcher succeed. -/
theorem matchC_complete : ∀ {re : RE} {p : Option Char} {s : List Char}
    {q : Option Char} {rest : List Char},
    Reach re p s q rest →
    ∀ {k : Option Char → List Char → Option (List Char)},
      (k q rest).isSome = true → (matchC re p s k).isSome = true := by
  intro re p s q rest hr
  induction hr with
  | lit h =>
    intro k hk
    rw [matchC, h]
    exact hk
  | seq ha hb iha ihb =>
    intro k hk
    rw [matchC]
    exact iha (ihb hk)
  | altL ha iha =>
    intro k hk
    rw [matchC]
    exact isSome_orElse_left _ _ (iha hk)
  | altR hb ihb =>
    intro k hk
    rw [matchC]
    exact isSome_orElse_right _ _ (ihb hk)
  | @wb p' s' h =>
    intro k hk
    rw [show matchC RE.wb p' s' k = if boundary p' s'.head? then k p' s' else none from rfl,
      if_pos h]
    exact hk
  | @rep rs lo hi p' s' n h1 h2 =>
    intro k hk
    cases hi with
    | some c =>
      rw [show matchC (.rep rs lo (some c)) p' s' k =
        repGo p' s' lo k (min (leadCount rs s') c) from rfl]
      exact isSome_repGo.mpr ⟨n, h1, h2, hk⟩
    | none =>
      rw [show matchC (.rep rs lo none) p' s' k =
        repGo p' s' lo k (leadCount rs s') from rfl]
      exact isSome_repGo.mpr ⟨n, h1, h2, hk⟩

theorem firstRest_isSome_iff {re : RE} {p : Option Char} {s : List Char} :
    (firstRest re p s).isSome = true ↔ ∃ q rest, Reach re p s q rest := by
  constructor
  · intro h
    rcases Option.isSome_iff_exists.mp h with ⟨res, hres⟩
    obtain ⟨q, rest, hr, hk⟩ := matchC_sound hres
    exact ⟨q, rest, hr⟩
  · rintro ⟨q, rest, hr⟩
    exact matchC_complete hr (by simp)

theorem firstRest_eq_some_reach {re : RE} {p : Option Char} {s rest : List Char}
    (h : firstRest re p s = some rest) : ∃ q, Reach re p s q rest := by
  obtain ⟨q, rest', hr, hk⟩ := matchC_sound h
  have : rest' = rest := by simpa using hk
  subst this
  exact ⟨q, hr⟩

theorem firstRest_eq_none_of_no_reach {re : RE} {p : Option Char} {s : List Char}
    (h : ∀ q rest, ¬Reach re p s q rest) : firstRest re p s = none := by
  cases hf : firstRest re p s with
  | none => rfl
  | some rest =>
    obtain ⟨q, hr⟩ := firstRest_eq_some_reach hf
    exact absurd hr (h q rest)

theorem Reach_lit_iff {cs : List Char} {p : Option Char} {s : List Char}
    {q : Option Char} {rest : List Char} :
    Reach (.lit cs) p s q rest ↔ s = cs ++ rest ∧ q = (cs.getLast? <|> p) := by
  constructor
  · intro h
    cases h with
    | lit hstrip => exact ⟨stripLit_eq_some.mp hstrip, rfl⟩
  · rintro ⟨rfl, rfl⟩
    exact Reach.lit (stripLit_eq_some.mpr rfl)

theorem Reach_seq_iff {a b : RE} {p : Option Char} {s : List Char}
    {q : Option Char} {rest : List Char} :
    Reach (.seq a b) p s q rest ↔ ∃ q1 t1, Reach a p s q1 t1 ∧ Reach b q1 t1 q rest := by
  constructor
  · intro h
    cases h with
    | seq ha hb => exact ⟨_, _, ha, hb⟩
  · rintro ⟨q1, t1, ha, hb⟩
    exact Reach.seq ha hb

theorem Reach_alt_iff {a b : RE} {p : Option Char} {s : List Char}
    {q : Option Char} {rest : List Char} :
    Reach (.alt a b) p s q rest ↔ Reach a p s q rest ∨ Reach b p s q rest := by
  constructor
  · intro h
    cases h with
    | altL ha => exact Or.inl ha
    | altR hb => exact Or.inr hb
  · rintro (ha | hb)
    · exact Reach.altL ha
    · exact Reach.altR hb

theorem Reach_wb_iff {p : Option Char} {s : List Char} {q : Option Char} {rest : List Char} :
    Reach .wb p s q rest ↔ boundary p s.head? = true ∧ q = p ∧ rest = s := by
  constructor
  · intro h
    cases h with
    | wb hb => exact ⟨hb, rfl, rfl⟩
  · rintro ⟨hb, rfl, rfl⟩
    exact Reach.wb hb

theorem Reach_rep_some_iff {rs : List (Char × Char)} {lo cap : Nat} {p : Option Char}
    {s : List Char} {q : Option Char} {rest : List Char} :
    Reach (.rep rs lo (some cap)) p s q rest ↔
      ∃ u, s = u ++ rest ∧ (∀ c ∈ u, memClass rs c = true) ∧ lo ≤ u.length ∧
        u.length ≤ cap ∧ q = (u.getLast? <|> p) := by
  constructor
  · intro h
    cases h with
    | rep n h1 h2 =>
      simp only at h2
      have hcnt : n ≤ leadCount rs s := le_trans h2 (min_le_left _ _)
      have hlen : n ≤ s.length := le_trans hcnt leadCount_le_length
      refine ⟨s.take n, (List.take_append_drop n s).symm, leadCount_take hcnt, ?_, ?_, ?_⟩
      · rw [List.length_take]; omega
      · rw [List.length_take]; omega
      · exact prevAt_take hlen
  · rintro ⟨u, rfl, hall, hlo, hcap, rfl⟩
    have := @Reach.rep rs lo (some cap) p (u ++ rest)
      u.length hlo (by simp only; exact le_min (leadCount_ge_of_all hall) hcap)
    rwa [prevAt_append, List.drop_left] at this

theorem Reach_rep_none_iff {rs : List (Char × Char)} {lo : Nat} {p : Option Char}
    {s : List Char} {q : Option Char} {rest : List Char} :
    Reach (.rep rs lo none) p s q rest ↔
      ∃ u, s = u ++ rest ∧ (∀ c ∈ u, memClass rs c = true) ∧ lo ≤ u.length ∧
        q = (u.getLast? <|> p) := by
  constructor
  · intro h
    cases h with
    | rep n h1 h2 =>
      simp only at h2
      have hlen : n ≤ s.length := le_trans h2 leadCount_le_length
      refine ⟨s.take n, (List.take_append_drop n s).symm, leadCount_take h2, ?_, ?_⟩
      · rw [List.length_take]; omega
      · exact prevAt_take hlen
  · rintro ⟨u, rfl, hall, hlo, rfl⟩
    have := @Reach.rep rs lo none p (u ++ rest)
      u.length hlo (by simp only; exact leadCount_ge_of_all hall)
    rwa [prevAt_append, List.drop_left] at this

theorem ne_nil_of_length_pos {u : List Char} (h : 0 < u.length) : u ≠ [] := by
  intro hu; rw [hu] at h; simp at h

theorem getLast?_orElse_of_ne_nil' {u : List Char} (h : u ≠ []) (x : Option Char) :
    (u.getLast? <|> x) = u.getLast? := by
  rw [List.getLast?_eq_getLast _ h]
  exact Option.some_orElse _ _

/-- The shapes of the five patterns' matches, phrased through the source's
character classes. -/
def EmailShape (u : List Char) : Prop :=
  ∃ a b c, u = a ++ '@' :: (b ++ '.' :: c) ∧
    (∀ x ∈ a, memClass Patterns.localR x = true) ∧ 1 ≤ a.length ∧
    (∀ x ∈ b, memClass Patterns.domainR x = true) ∧ 1 ≤ b.length ∧
    (∀ x ∈ c, memClass Patterns.tldR x = true) ∧ 2 ≤ c.length

def SsnShape (u : List Char) : Prop :=
  ∃ d1 h d2, u = d1 ++ h ++ d2 ∧
    (∀ c ∈ d1, memClass Patterns.digitR c = true) ∧ d1.length = 6 ∧
    (∀ c ∈ h, memClass Patterns.hyphR c = true) ∧ h.length ≤ 1 ∧
    (∀ c ∈ d2, memClass Patterns.digitR c = true) ∧ d2.length = 7

def CardShape (u : List Char) : Prop :=
  ∃ d1 s1 d2 s2 d3 s3 d4, u = d1 ++ s1 ++ d2 ++ s2 ++ d3 ++ s3 ++ d4 ∧
    (∀ c ∈ d1, memClass Patterns.digitR c = true) ∧ d1.length = 4 ∧
    (∀ c ∈ s1, memClass Patterns.cardSepR c = true) ∧ s1.length ≤ 1 ∧
    (∀ c ∈ d2, memClass Patterns.digitR c = true) ∧ d2.length = 4 ∧
    (∀ c ∈ s2, memClass Patterns.cardSepR c = true) ∧ s2.length ≤ 1 ∧
    (∀ c ∈ d3, memClass Patterns.digitR c = true) ∧ d3.length = 4 ∧
    (∀ c ∈ s3, memClass Patterns.cardSepR c = true) ∧ s3.length ≤ 1 ∧
    (∀ c ∈ d4, memClass Patterns.digitR c = true) ∧ d4.length = 4

def IpShape (u : List Char) : Prop :=
  ∃ d1 d2 d3 d4, u = d1 ++ '.' :: (d2 ++ '.' :: (d3 ++ '.' :: d4)) ∧
    (∀ c ∈ d1, memClass Patterns.digitR c = true) ∧ 1 ≤ d1.length ∧ d1.length ≤ 3 ∧
    (∀ c ∈ d2, memClass Patterns.digitR c = true) ∧ 1 ≤ d2.length ∧ d2.length ≤ 3 ∧
    (∀ c ∈ d3, memClass Patterns.digitR c = true) ∧ 1 ≤ d3.length ∧ d3.length ≤ 3 ∧
    (∀ c ∈ d4, memClass Patterns.digitR c = true) ∧ 1 ≤ d4.length ∧ d4.length ≤ 3

def PhoneShape (u : List Char) : Prop := MobileShape u ∨ CodeLandlineShape u

theorem Reach_SSN_iff {p : Option Char} {s rest : List Char} :
    (∃ q, Reach Patterns.SSN p s q rest) ↔
      ∃ u, s = u ++ rest ∧ u ≠ [] ∧ SsnShape u ∧ boundary p u.head? = true ∧
        boundary u.getLast? rest.head? = true := by
  simp only [Patterns.SSN, Patterns.seqL, Reach_seq_iff, Reach_wb_iff, Reach_rep_some_iff]
  constructor
  · rintro ⟨q, q1, t1, ⟨hb, rfl, rfl⟩, q2, t2, ⟨u, rfl, hd1, h61, h62, rfl⟩,
      q3, t3, ⟨u1, rfl, hh, -, hh1, rfl⟩, q4, t4, ⟨u2, rfl, hd2, h71, h72, rfl⟩, hbe, rfl, rfl⟩
    have hune : u ≠ [] := ne_nil_of_length_pos (by omega)
    have hu2ne : u2 ≠ [] := ne_nil_of_length_pos (by omega)
    refine ⟨u ++ u1 ++ u2, by simp [List.append_assoc], by simp [hune], ⟨u, u1, u2, rfl,
      hd1, by omega, hh, hh1, hd2, by omega⟩, ?_, ?_⟩
    · have e1 : (u ++ u1 ++ u2).head? = u.head? := by
        rw [List.head?_append_of_ne_nil _ (by simp [hune]), List.head?_append_of_ne_nil _ hune]
      have e2 : (u ++ (u1 ++ (u2 ++ rest))).head? = u.head? :=
        List.head?_append_of_ne_nil _ hune
      rw [e1]
      rwa [e2] at hb
    · have e1 : (u ++ u1 ++ u2).getLast? = u2.getLast? :=
        List.getLast?_append_of_ne_nil _ hu2ne
      rw [e1]
      rwa [getLast?_orElse_of_ne_nil' hu2ne] at hbe
  · rintro ⟨u, rfl, hne, ⟨d1, h, d2, rfl, hd1, h6, hh, hh1, hd2, h7⟩, hb1, hb2⟩
    have hd1ne : d1 ≠ [] := ne_nil_of_length_pos (by omega)
    have hd2ne : d2 ≠ [] := ne_nil_of_length_pos (by omega)
    refine ⟨(d2.getLast? <|> (h.getLast? <|> (d1.getLast? <|> p))), p, (d1 ++ h ++ d2) ++ rest,
      ⟨?_, rfl, rfl⟩,
      (d1.getLast? <|> p), h ++ (d2 ++ rest),
      ⟨d1, by simp [List.append_assoc], hd1, by omega, by omega, rfl⟩,
      (h.getLast? <|> (d1.getLast? <|> p)), d2 ++ rest, ⟨h, rfl, hh, Nat.zero_le _, hh1, rfl⟩,
      _, rest, ⟨d2, rfl, hd2, by omega, by omega, rfl⟩, ?_, rfl, rfl⟩
    · have e1 : ((d1 ++ h ++ d2) ++ rest).head? = (d1 ++ h ++ d2).head? :=
        List.head?_append_of_ne_nil _ (by simp [hd1ne])
      rwa [e1]
    · rw [getLast?_orElse_of_ne_nil' hd2ne]
      rwa [List.getLast?_append_of_ne_nil _ hd2ne] at hb2

theorem getLast?_cons_of_ne_nil {a : Char} {y : List Char} (h : y ≠ []) :
    (a :: y).getLast? = y.getLast? := by
  rw [show (a :: y) = [a] ++ y from rfl, List.getLast?_append_of_ne_nil _ h]

theorem Reach_IP_iff {p : Option Char} {s rest : List Char} :
    (∃ q, Reach Patterns.IP_ADDRESS p s q rest) ↔
      ∃ u, s = u ++ rest ∧ u ≠ [] ∧ IpShape u ∧ boundary p u.head? = true ∧
        boundary u.getLast? rest.head? = true := by
  simp only [Patterns.IP_ADDRESS, Patterns.seqL, Reach_seq_iff, Reach_wb_iff,
    Reach_rep_some_iff, Reach_lit_iff]
  constructor
  · rintro ⟨q, q1, t1, ⟨hb, rfl, rfl⟩, q2, t2, ⟨u1, rfl, hu1, h11, h13, rfl⟩,
      q3, t3, ⟨rfl, rfl⟩, q4, t4, ⟨u2, rfl, hu2, h21, h23, rfl⟩,
      q5, t5, ⟨rfl, rfl⟩, q6, t6, ⟨u3, rfl, hu3, h31, h33, rfl⟩,
      q7, t7, ⟨rfl, rfl⟩, q8, t8, ⟨u4, rfl, hu4, h41, h43, rfl⟩, hbe, rfl, rfl⟩
    simp only [List.singleton_append] at hb
    have h1ne : u1 ≠ [] := ne_nil_of_length_pos (by omega)
    have h4ne : u4 ≠ [] := ne_nil_of_length_pos (by omega)
    have hgl : (u1 ++ '.' :: (u2 ++ '.' :: (u3 ++ '.' :: u4))).getLast? = u4.getLast? := by
      rw [List.getLast?_append_of_ne_nil _ (by simp), getLast?_cons_of_ne_nil (by simp [h4ne]),
        List.getLast?_append_of_ne_nil _ (by simp), getLast?_cons_of_ne_nil (by simp [h4ne]),
        List.getLast?_append_of_ne_nil _ (by simp), getLast?_cons_of_ne_nil h4ne]
    refine ⟨u1 ++ '.' :: (u2 ++ '.' :: (u3 ++ '.' :: u4)), by simp [List.append_assoc],
      by simp [h1ne], ⟨u1, u2, u3, u4, rfl, hu1, h11, h13, hu2, h21, h23, hu3, h31, h33,
        hu4, h41, h43⟩, ?_, ?_⟩
    · have e1 : (u1 ++ '.' :: (u2 ++ '.' :: (u3 ++ '.' :: u4))).head? = u1.head? :=
        List.head?_append_of_ne_nil _ h1ne
      have e2 : (u1 ++ ('.' :: (u2 ++ ('.' :: (u3 ++ ('.' :: (u4 ++ rest))))))).head? =
          u1.head? := List.head?_append_of_ne_nil _ h1ne
      rw [e1]
      rwa [e2] at hb
    · rw [hgl]
      rwa [getLast?_orElse_of_ne_nil' h4ne] at hbe
  · rintro ⟨u, rfl, hne, ⟨u1, u2, u3, u4, rfl, hu1, h11, h13, hu2, h21, h23, hu3, h31, h33,
      hu4, h41, h43⟩, hb1, hb2⟩
    have h1ne : u1 ≠ [] := ne_nil_of_length_pos (by omega)
    have h4ne : u4 ≠ [] := ne_nil_of_length_pos (by omega)
    have hgl : (u1 ++ '.' :: (u2 ++ '.' :: (u3 ++ '.' :: u4))).getLast? = u4.getLast? := by
      rw [List.getLast?_append_of_ne_nil _ (by simp), getLast?_cons_of_ne_nil (by simp [h4ne]),
        List.getLast?_append_of_ne_nil _ (by simp), getLast?_cons_of_ne_nil (by simp [h4ne]),
        List.getLast?_append_of_ne_nil _ (by simp), getLast?_cons_of_ne_nil h4ne]
    refine ⟨_, p, _, ⟨?_, rfl, rfl⟩,
      _, '.' :: (u2 ++ ('.' :: (u3 ++ ('.' :: (u4 ++ rest))))),
      ⟨u1, by simp [List.append_assoc], hu1, h11, h13, rfl⟩,
      _, u2 ++ ('.' :: (u3 ++ ('.' :: (u4 ++ rest)))), ⟨rfl, rfl⟩,
      _, '.' :: (u3 ++ ('.' :: (u4 ++ rest))), ⟨u2, rfl, hu2, h21, h23, rfl⟩,
      _, u3 ++ ('.' :: (u4 ++ rest)), ⟨rfl, rfl⟩,
      _, '.' :: (u4 ++ rest), ⟨u3, rfl, hu3, h31, h33, rfl⟩,
      _, u4 ++ rest, ⟨rfl, rfl⟩,
      _, rest, ⟨u4, rfl, hu4, h41, h43, rfl⟩, ?_, rfl, rfl⟩
    · have e1 : ((u1 ++ '.' :: (u2 ++ '.' :: (u3 ++ '.' :: u4))) ++ rest).head? = u1.head? := by
        rw [List.head?_append_of_ne_nil _ (by simp [h1ne]),
          List.head?_append_of_ne_nil _ h1ne]
      rw [e1]
      rwa [List.head?_append_of_ne_nil _ h1ne] at hb1
    · rw [getLast?_orElse_of_ne_nil' h4ne]
      rwa [hgl] at hb2

theorem Reach_EMAIL_iff {p : Option Char} {s rest : List Char} :
    (∃ q, Reach Patterns.EMAIL p s q rest) ↔
      ∃ u, s = u ++ rest ∧ u ≠ [] ∧ EmailShape u ∧ boundary p u.head? = true ∧
        boundary u.getLast? rest.head? = true := by
  simp only [Patterns.EMAIL, Patterns.seqL, Reach_seq_iff, Reach_wb_iff,
    Reach_rep_none_iff, Reach_lit_iff]
  constructor
  · rintro ⟨q, q1, t1, ⟨hb, rfl, rfl⟩, q2, t2, ⟨a, rfl, ha, ha1, rfl⟩,
      q3, t3, ⟨rfl, rfl⟩, q4, t4, ⟨b, rfl, hbd, hb1, rfl⟩,
      q5, t5, ⟨rfl, rfl⟩, q6, t6, ⟨c, rfl, hc, hc2, rfl⟩, hbe, rfl, rfl⟩
    simp only [List.singleton_append] at hb
    have hane : a ≠ [] := ne_nil_of_length_pos (by omega)
    have hcne : c ≠ [] := ne_nil_of_length_pos (by omega)
    have hgl : (a ++ '@' :: (b ++ '.' :: c)).getLast? = c.getLast? := by
      rw [List.getLast?_append_of_ne_nil _ (by simp), getLast?_cons_of_ne_nil (by simp [hcne]),
        List.getLast?_append_of_ne_nil _ (by simp), getLast?_cons_of_ne_nil hcne]
    refine ⟨a ++ '@' :: (b ++ '.' :: c), by simp [List.append_assoc],
      by simp [hane], ⟨a, b, c, rfl, ha, ha1, hbd, hb1, hc, hc2⟩, ?_, ?_⟩
    · have e1 : (a ++ '@' :: (b ++ '.' :: c)).head? = a.head? :=
        List.head?_append_of_ne_nil _ hane
      have e2 : (a ++ '@' :: (b ++ '.' :: (c ++ rest))).head? = a.head? :=
        List.head?_append_of_ne_nil _ hane
      rw [e1]
      rwa [e2] at hb
    · rw [hgl]
      rwa [getLast?_orElse_of_ne_nil' hcne] at hbe
  · rintro ⟨u, rfl, hne, ⟨a, b, c, rfl, ha, ha1, hbd, hb1, hc, hc2⟩, hb1', hb2⟩
    have hane : a ≠ [] := ne_nil_of_length_pos (by omega)
    have hcne : c ≠ [] := ne_nil_of_length_pos (by omega)
    have hgl : (a ++ '@' :: (b ++ '.' :: c)).getLast? = c.getLast? := by
      rw [List.getLast?_append_of_ne_nil _ (by simp), getLast?_cons_of_ne_nil (by simp [hcne]),
        List.getLast?_append_of_ne_nil _ (by simp), getLast?_cons_of_ne_nil hcne]
    refine ⟨_, p, _, ⟨?_, rfl, rfl⟩,
      _, '@' :: (b ++ ('.' :: (c ++ rest))), ⟨a, by simp [List.append_assoc], ha, ha1, rfl⟩,
      _, b ++ ('.' :: (c ++ rest)), ⟨rfl, rfl⟩,
      _, '.' :: (c ++ rest), ⟨b, rfl, hbd, hb1, rfl⟩,
      _, c ++ rest, ⟨rfl, rfl⟩,
      _, rest, ⟨c, rfl, hc, hc2, rfl⟩, ?_, rfl, rfl⟩
    · have e1 : ((a ++ '@' :: (b ++ '.' :: c)) ++ rest).head? = a.head? := by
        rw [List.head?_append_of_ne_nil _ (by simp [hane]),
          List.head?_append_of_ne_nil _ hane]
      rw [e1]
      rwa [List.head?_append_of_ne_nil _ hane] at hb1'
    · rw [getLast?_orElse_of_ne_nil' hcne]
      rwa [hgl] at hb2

theorem Reach_MOBILE_iff {p : Option Char} {s rest : List Char} :
    (∃ q, Reach Patterns.MOBILE p s q rest) ↔
      ∃ u, s = u ++ rest ∧ u ≠ [] ∧ MobileShape u ∧ boundary p u.head? = true ∧
        boundary u.getLast? rest.head? = true := by
  simp only [Patterns.MOBILE, Patterns.seqL, Reach_seq_iff, Reach_wb_iff, Reach_alt_iff,
    Reach_rep_some_iff, Reach_lit_iff]
  constructor
  · rintro ⟨q, q1, t1, ⟨hb, rfl, rfl⟩, q2, t2,
      (⟨rfl, rfl⟩ | ⟨rfl, rfl⟩ | ⟨rfl, rfl⟩ | ⟨rfl, rfl⟩ | ⟨rfl, rfl⟩ | ⟨rfl, rfl⟩),
      q3, t3, ⟨h1, rfl, hh1, -, hh1l, rfl⟩, q4, t4, ⟨d1, rfl, hd1, h31, h34, rfl⟩,
      q5, t5, ⟨h2, rfl, hh2, -, hh2l, rfl⟩, q6, t6, ⟨d2, rfl, hd2, h41, h44, rfl⟩,
      hbe, rfl, rfl⟩ <;>
      simp only [List.cons_append, List.nil_append, List.head?_cons] at hb <;>
      have hd2ne : d2 ≠ [] := ne_nil_of_length_pos (by omega)
    · refine ⟨['0', '1', '0'] ++ h1 ++ d1 ++ h2 ++ d2, by simp [List.append_assoc], by simp,
        ⟨['0', '1', '0'], h1, d1, h2, d2, by simp, rfl, hyphOpt_iff.mp ⟨hh1, hh1l⟩,
          fun c hc => memClass_digitR_iff.mp (hd1 c hc), by omega,
          hyphOpt_iff.mp ⟨hh2, hh2l⟩, fun c hc => memClass_digitR_iff.mp (hd2 c hc),
          by omega⟩, by simpa using hb, ?_⟩
      rw [List.getLast?_append_of_ne_nil _ hd2ne]
      rwa [getLast?_orElse_of_ne_nil' hd2ne] at hbe
    · refine ⟨['0', '1', '1'] ++ h1 ++ d1 ++ h2 ++ d2, by simp [List.append_assoc], by simp,
        ⟨['0', '1', '1'], h1, d1, h2, d2, by simp, rfl, hyphOpt_iff.mp ⟨hh1, hh1l⟩,
          fun c hc => memClass_digitR_iff.mp (hd1 c hc), by omega,
          hyphOpt_iff.mp ⟨hh2, hh2l⟩, fun c hc => memClass_digitR_iff.mp (hd2 c hc),
          by omega⟩, by simpa using hb, ?_⟩
      rw [List.getLast?_append_of_ne_nil _ hd2ne]
      rwa [getLast?_orElse_of_ne_nil' hd2ne] at hbe
    · refine ⟨['0', '1', '6'] ++ h1 ++ d1 ++ h2 ++ d2, by simp [List.append_assoc], by simp,
        ⟨['0', '1', '6'], h1, d1, h2, d2, by simp, rfl, hyphOpt_iff.mp ⟨hh1, hh1l⟩,
          fun c hc => memClass_digitR_iff.mp (hd1 c hc), by omega,
          hyphOpt_iff.mp ⟨hh2, hh2l⟩, fun c hc => memClass_digitR_iff.mp (hd2 c hc),
          by omega⟩, by simpa using hb, ?_⟩
      rw [List.getLast?_append_of_ne_nil _ hd2ne]
      rwa [getLast?_orElse_of_ne_nil' hd2ne] at hbe
    · refine ⟨['0', '1', '7'] ++ h1 ++ d1 ++ h2 ++ d2, by simp [List.append_assoc], by simp,
        ⟨['0', '1', '7'], h1, d1, h2, d2, by simp, rfl, hyphOpt_iff.mp ⟨hh1, hh1l⟩,
          fun c hc => memClass_digitR_iff.mp (hd1 c hc), by omega,
          hyphOpt_iff.mp ⟨hh2, hh2l⟩, fun c hc => memClass_digitR_iff.mp (hd2 c hc),
          by omega⟩, by simpa using hb, ?_⟩
      rw [List.getLast?_append_of_ne_nil _ hd2ne]
      rwa [getLast?_orElse_of_ne_nil' hd2ne] at hbe
    · refine ⟨['0', '1', '8'] ++ h1 ++ d1 ++ h2 ++ d2, by simp [List.append_assoc], by simp,
        ⟨['0', '1', '8'], h1, d1, h2, d2, by simp, rfl, hyphOpt_iff.mp ⟨hh1, hh1l⟩,
          fun c hc => memClass_digitR_iff.mp (hd1 c hc), by omega,
          hyphOpt_iff.mp ⟨hh2, hh2l⟩, fun c hc => memClass_digitR_iff.mp (hd2 c hc),
          by omega⟩, by simpa using hb, ?_⟩
      rw [List.getLast?_append_of_ne_nil _ hd2ne]
      rwa [getLast?_orElse_of_ne_nil' hd2ne] at hbe
    · refine ⟨['0', '1', '9'] ++ h1 ++ d1 ++ h2 ++ d2, by simp [List.append_assoc], by simp,
        ⟨['0', '1', '9'], h1, d1, h2, d2, by simp, rfl, hyphOpt_iff.mp ⟨hh1, hh1l⟩,
          fun c hc => memClass_digitR_iff.mp (hd1 c hc), by omega,
          hyphOpt_iff.mp ⟨hh2, hh2l⟩, fun c hc => memClass_digitR_iff.mp (hd2 c hc),
          by omega⟩, by simpa using hb, ?_⟩
      rw [List.getLast?_append_of_ne_nil _ hd2ne]
      rwa [getLast?_orElse_of_ne_nil' hd2ne] at hbe
  · rintro ⟨u, rfl, hne, ⟨pre, h1, d1, h2, d2, hpre, rfl, hh1, hd1, hl1, hh2, hd2, hl2⟩,
      hb1, hb2⟩
    have hd2ne : d2 ≠ [] := by
      intro h; rw [h] at hl2; simp at hl2
    have hb2' : boundary d2.getLast? rest.head? = true := by
      rwa [List.getLast?_append_of_ne_nil _ hd2ne] at hb2
    obtain ⟨hhh1, hhh1l⟩ := hyphOpt_iff.mpr hh1
    obtain ⟨hhh2, hhh2l⟩ := hyphOpt_iff.mpr hh2
    rcases hpre with rfl | rfl | rfl | rfl | rfl | rfl
    · exact ⟨_, p, _, ⟨by simpa using hb1, rfl, rfl⟩, _,
        h1 ++ (d1 ++ (h2 ++ (d2 ++ rest))), (Or.inl ⟨by simp [List.append_assoc], rfl⟩),
        _, d1 ++ (h2 ++ (d2 ++ rest)), ⟨h1, rfl, hhh1, Nat.zero_le _, hhh1l, rfl⟩,
        _, h2 ++ (d2 ++ rest), ⟨d1, rfl, fun c hc => memClass_digitR_iff.mpr (hd1 c hc),
          by omega, by omega, rfl⟩,
        _, d2 ++ rest, ⟨h2, rfl, hhh2, Nat.zero_le _, hhh2l, rfl⟩,
        _, rest, ⟨d2, rfl, fun c hc => memClass_digitR_iff.mpr (hd2 c hc),
          by omega, by omega, rfl⟩,
        by rwa [getLast?_orElse_of_ne_nil' hd2ne], rfl, rfl⟩
    · exact ⟨_, p, _, ⟨by simpa using hb1, rfl, rfl⟩, _,
        h1 ++ (d1 ++ (h2 ++ (d2 ++ rest))), (Or.inr (Or.inl ⟨by simp [List.append_assoc], rfl⟩)),
        _, d1 ++ (h2 ++ (d2 ++ rest)), ⟨h1, rfl, hhh1, Nat.zero_le _, hhh1l, rfl⟩,
        _, h2 ++ (d2 ++ rest), ⟨d1, rfl, fun c hc => memClass_digitR_iff.mpr (hd1 c hc),
          by omega, by omega, rfl⟩,
        _, d2 ++ rest, ⟨h2, rfl, hhh2, Nat.zero_le _, hhh2l, rfl⟩,
        _, rest, ⟨d2, rfl, fun c hc => memClass_digitR_iff.mpr (hd2 c hc),
          by omega, by omega, rfl⟩,
        by rwa [getLast?_orElse_of_ne_nil' hd2ne], rfl, rfl⟩
    · exact ⟨_, p, _, ⟨by simpa using hb1, rfl, rfl⟩, _,
        h1 ++ (d1 ++ (h2 ++ (d2 ++ rest))), (Or.inr (Or.inr (Or.inl ⟨by simp [List.append_assoc], rfl⟩))),
        _, d1 ++ (h2 ++ (d2 ++ rest)), ⟨h1, rfl, hhh1, Nat.zero_le _, hhh1l, rfl⟩,
        _, h2 ++ (d2 ++ rest), ⟨d1, rfl, fun c hc => memClass_digitR_iff.mpr (hd1 c hc),
          by omega, by omega, rfl⟩,
        _, d2 ++ rest, ⟨h2, rfl, hhh2, Nat.zero_le _, hhh2l, rfl⟩,
        _, rest, ⟨d2, rfl, fun c hc => memClass_digitR_iff.mpr (hd2 c hc),
          by omega, by omega, rfl⟩,
        by rwa [getLast?_orElse_of_ne_nil' hd2ne], rfl, rfl⟩
    · exact ⟨_, p, _, ⟨by simpa using hb1, rfl, rfl⟩, _,
        h1 ++ (d1 ++ (h2 ++ (d2 ++ rest))), (Or.inr (Or.inr (Or.inr (Or.inl ⟨by simp [List.append_assoc], rfl⟩)))),
        _, d1 ++ (h2 ++ (d2 ++ rest)), ⟨h1, rfl, hhh1, Nat.zero_le _, hhh1l, rfl⟩,
        _, h2 ++ (d2 ++ rest), ⟨d1, rfl, fun c hc => memClass_digitR_iff.mpr (hd1 c hc),
          by omega, by omega, rfl⟩,
        _, d2 ++ rest, ⟨h2, rfl, hhh2, Nat.zero_le _, hhh2l, rfl⟩,
        _, rest, ⟨d2, rfl, fun c hc => memClass_digitR_iff.mpr (hd2 c hc),
          by omega, by omega, rfl⟩,
        by rwa [getLast?_orElse_of_ne_nil' hd2ne], rfl, rfl⟩
    · exact ⟨_, p, _, ⟨by simpa using hb1, rfl, rfl⟩, _,
        h1 ++ (d1 ++ (h2 ++ (d2 ++ rest))), (Or.inr (Or.inr (Or.inr (Or.inr (Or.inl ⟨by simp [List.append_assoc], rfl⟩))))),
        _, d1 ++ (h2 ++ (d2 ++ rest)), ⟨h1, rfl, hhh1, Nat.zero_le _, hhh1l, rfl⟩,
        _, h2 ++ (d2 ++ rest), ⟨d1, rfl, fun c hc => memClass_digitR_iff.mpr (hd1 c hc),
          by omega, by omega, rfl⟩,
        _, d2 ++ rest, ⟨h2, rfl, hhh2, Nat.zero_le _, hhh2l, rfl⟩,
        _, rest, ⟨d2, rfl, fun c hc => memClass_digitR_iff.mpr (hd2 c hc),
          by omega, by omega, rfl⟩,
        by rwa [getLast?_orElse_of_ne_nil' hd2ne], rfl, rfl⟩
    · exact ⟨_, p, _, ⟨by simpa using hb1, rfl, rfl⟩, _,
        h1 ++ (d1 ++ (h2 ++ (d2 ++ rest))), (Or.inr (Or.inr (Or.inr (Or.inr (Or.inr ⟨by simp [List.append_assoc], rfl⟩))))),
        _, d1 ++ (h2 ++ (d2 ++ rest)), ⟨h1, rfl, hhh1, Nat.zero_le _, hhh1l, rfl⟩,
        _, h2 ++ (d2 ++ rest), ⟨d1, rfl, fun c hc => memClass_digitR_iff.mpr (hd1 c hc),
          by omega, by omega, rfl⟩,
        _, d2 ++ rest, ⟨h2, rfl, hhh2, Nat.zero_le _, hhh2l, rfl⟩,
        _, rest, ⟨d2, rfl, fun c hc => memClass_digitR_iff.mpr (hd2 c hc),
          by omega, by omega, rfl⟩,
        by rwa [getLast?_orElse_of_ne_nil' hd2ne], rfl, rfl⟩

theorem Reach_LANDLINE_iff {p : Option Char} {s rest : List Char} :
    (∃ q, Reach Patterns.LANDLINE p s q rest) ↔
      ∃ u, s = u ++ rest ∧ u ≠ [] ∧ CodeLandlineShape u ∧ boundary p u.head? = true ∧
        boundary u.getLast? rest.head? = true := by
  simp only [Patterns.LANDLINE, Patterns.seqL, Reach_seq_iff, Reach_wb_iff,
    Reach_rep_some_iff, Reach_lit_iff]
  constructor
  · rintro ⟨q, q1, t1, ⟨hb, rfl, rfl⟩, q2, t2, ⟨rfl, rfl⟩,
      q3, t3, ⟨g1, rfl, hg1, h11, h12, rfl⟩, q4, t4, ⟨h1, rfl, hh1, -, hh1l, rfl⟩,
      q5, t5, ⟨g2, rfl, hg2, h31, h34, rfl⟩, q6, t6, ⟨h2, rfl, hh2, -, hh2l, rfl⟩,
      q7, t7, ⟨g3, rfl, hg3, h41, h44, rfl⟩, hbe, rfl, rfl⟩
    simp only [List.singleton_append, List.head?_cons] at hb
    have hg3ne : g3 ≠ [] := ne_nil_of_length_pos (by omega)
    have hgl : ('0' :: (g1 ++ h1 ++ g2 ++ h2 ++ g3)).getLast? = g3.getLast? := by
      rw [getLast?_cons_of_ne_nil (by simp [hg3ne]), List.getLast?_append_of_ne_nil _ hg3ne]
    refine ⟨'0' :: (g1 ++ h1 ++ g2 ++ h2 ++ g3), by simp [List.append_assoc], by simp,
      ⟨g1, h1, g2, h2, g3, rfl, fun c hc => memClass_digitR_iff.mp (hg1 c hc), by omega,
        hyphOpt_iff.mp ⟨hh1, hh1l⟩, fun c hc => memClass_digitR_iff.mp (hg2 c hc), by omega,
        hyphOpt_iff.mp ⟨hh2, hh2l⟩, fun c hc => memClass_digitR_iff.mp (hg3 c hc), by omega⟩,
      by simpa using hb, ?_⟩
    rw [hgl]
    rwa [getLast?_orElse_of_ne_nil' hg3ne] at hbe
  · rintro ⟨u, rfl, hne, ⟨g1, h1, g2, h2, g3, rfl, hg1, h12, hh1, hg2, h34, hh2, hg3, h4⟩,
      hb1, hb2⟩
    have hg3ne : g3 ≠ [] := ne_nil_of_length_pos (by omega)
    obtain ⟨hhh1, hhh1l⟩ := hyphOpt_iff.mpr hh1
    obtain ⟨hhh2, hhh2l⟩ := hyphOpt_iff.mpr hh2
    have hb2' : boundary g3.getLast? rest.head? = true := by
      rwa [getLast?_cons_of_ne_nil (by simp [hg3ne]),
        List.getLast?_append_of_ne_nil _ hg3ne] at hb2
    exact ⟨_, p, _, ⟨by simpa using hb1, rfl, rfl⟩,
      _, g1 ++ (h1 ++ (g2 ++ (h2 ++ (g3 ++ rest)))), ⟨by simp [List.append_assoc], rfl⟩,
      _, h1 ++ (g2 ++ (h2 ++ (g3 ++ rest))),
      ⟨g1, rfl, fun c hc => memClass_digitR_iff.mpr (hg1 c hc), by omega, by omega, rfl⟩,
      _, g2 ++ (h2 ++ (g3 ++ rest)), ⟨h1, rfl, hhh1, Nat.zero_le _, hhh1l, rfl⟩,
      _, h2 ++ (g3 ++ rest),
      ⟨g2, rfl, fun c hc => memClass_digitR_iff.mpr (hg2 c hc), by omega, by omega, rfl⟩,
      _, g3 ++ rest, ⟨h2, rfl, hhh2, Nat.zero_le _, hhh2l, rfl⟩,
      _, rest, ⟨g3, rfl, fun c hc => memClass_digitR_iff.mpr (hg3 c hc), by omega, by omega,
        rfl⟩,
      by rwa [getLast?_orElse_of_ne_nil' hg3ne], rfl, rfl⟩

theorem Reach_PHONE_iff {p : Option Char} {s rest : List Char} :
    (∃ q, Reach Patterns.PHONE p s q rest) ↔
      ∃ u, s = u ++ rest ∧ u ≠ [] ∧ PhoneShape u ∧ boundary p u.head? = true ∧
        boundary u.getLast? rest.head? = true := by
  constructor
  · rintro ⟨q, hr⟩
    rcases Reach_alt_iff.mp hr with hm | hl
    · obtain ⟨u, h1, h2, h3, h4, h5⟩ := Reach_MOBILE_iff.mp ⟨q, hm⟩
      exact ⟨u, h1, h2, Or.inl h3, h4, h5⟩
    · obtain ⟨u, h1, h2, h3, h4, h5⟩ := Reach_LANDLINE_iff.mp ⟨q, hl⟩
      exact ⟨u, h1, h2, Or.inr h3, h4, h5⟩
  · rintro ⟨u, h1, h2, (h3 | h3), h4, h5⟩
    · obtain ⟨q, hr⟩ := Reach_MOBILE_iff.mpr ⟨u, h1, h2, h3, h4, h5⟩
      exact ⟨q, Reach_alt_iff.mpr (Or.inl hr)⟩
    · obtain ⟨q, hr⟩ := Reach_LANDLINE_iff.mpr ⟨u, h1, h2, h3, h4, h5⟩
      exact ⟨q, Reach_alt_iff.mpr (Or.inr hr)⟩

theorem Reach_CARD_iff {p : Option Char} {s rest : List Char} :
    (∃ q, Reach Patterns.CARD p s q rest) ↔
      ∃ u, s = u ++ rest ∧ u ≠ [] ∧ CardShape u ∧ boundary p u.head? = true ∧
        boundary u.getLast? rest.head? = true := by
  simp only [Patterns.CARD, Patterns.seqL, Reach_seq_iff, Reach_wb_iff, Reach_rep_some_iff]
  constructor
  · rintro ⟨q, q1, t1, ⟨hb, rfl, rfl⟩, q2, t2, ⟨d1, rfl, hd1, h11, h12, rfl⟩,
      q3, t3, ⟨s1, rfl, hs1, -, hs1l, rfl⟩, q4, t4, ⟨d2, rfl, hd2, h21, h22, rfl⟩,
      q5, t5, ⟨s2, rfl, hs2, -, hs2l, rfl⟩, q6, t6, ⟨d3, rfl, hd3, h31, h32, rfl⟩,
      q7, t7, ⟨s3, rfl, hs3, -, hs3l, rfl⟩, q8, t8, ⟨d4, rfl, hd4, h41, h42, rfl⟩,
      hbe, rfl, rfl⟩
    have hd1ne : d1 ≠ [] := ne_nil_of_length_pos (by omega)
    have hd4ne : d4 ≠ [] := ne_nil_of_length_pos (by omega)
    refine ⟨d1 ++ s1 ++ d2 ++ s2 ++ d3 ++ s3 ++ d4, by simp [List.append_assoc],
      by simp [hd1ne],
      ⟨d1, s1, d2, s2, d3, s3, d4, rfl, hd1, by omega, hs1, hs1l, hd2, by omega, hs2, hs2l,
        hd3, by omega, hs3, hs3l, hd4, by omega⟩, ?_, ?_⟩
    · have e1 : (d1 ++ s1 ++ d2 ++ s2 ++ d3 ++ s3 ++ d4).head? = d1.head? := by
        rw [List.head?_append_of_ne_nil _ (by simp [hd1ne]),
          List.head?_append_of_ne_nil _ (by simp [hd1ne]),
          List.head?_append_of_ne_nil _ (by simp [hd1ne]),
          List.head?_append_of_ne_nil _ (by simp [hd1ne]),
          List.head?_append_of_ne_nil _ (by simp [hd1ne]),
          List.head?_append_of_ne_nil _ hd1ne]
      rw [e1]
      rwa [List.head?_append_of_ne_nil _ hd1ne] at hb
    · rw [List.getLast?_append_of_ne_nil _ hd4ne]
      rwa [getLast?_orElse_of_ne_nil' hd4ne] at hbe
  · rintro ⟨u, rfl, hne, ⟨d1, s1, d2, s2, d3, s3, d4, rfl, hd1, h1l, hs1, hs1l, hd2, h2l,
      hs2, hs2l, hd3, h3l, hs3, hs3l, hd4, h4l⟩, hb1, hb2⟩
    have hd1ne : d1 ≠ [] := ne_nil_of_length_pos (by omega)
    have hd4ne : d4 ≠ [] := ne_nil_of_length_pos (by omega)
    have hb1' : boundary p d1.head? = true := by
      rwa [List.head?_append_of_ne_nil _ (by simp [hd1ne]),
        List.head?_append_of_ne_nil _ (by simp [hd1ne]),
        List.head?_append_of_ne_nil _ (by simp [hd1ne]),
        List.head?_append_of_ne_nil _ (by simp [hd1ne]),
        List.head?_append_of_ne_nil _ (by simp [hd1ne]),
        List.head?_append_of_ne_nil _ hd1ne] at hb1
    have hb2' : boundary d4.getLast? rest.head? = true := by
      rwa [List.getLast?_append_of_ne_nil _ hd4ne] at hb2
    exact ⟨_, p, _, ⟨by rw [List.head?_append_of_ne_nil _ (by simp [hd1ne])]; exact hb1,
      rfl, rfl⟩,
      _, s1 ++ (d2 ++ (s2 ++ (d3 ++ (s3 ++ (d4 ++ rest))))),
      ⟨d1, by simp [List.append_assoc], hd1, by omega, by omega, rfl⟩,
      _, d2 ++ (s2 ++ (d3 ++ (s3 ++ (d4 ++ rest)))),
      ⟨s1, rfl, hs1, Nat.zero_le _, hs1l, rfl⟩,
      _, s2 ++ (d3 ++ (s3 ++ (d4 ++ rest))),
      ⟨d2, rfl, hd2, by omega, by omega, rfl⟩,
      _, d3 ++ (s3 ++ (d4 ++ rest)), ⟨s2, rfl, hs2, Nat.zero_le _, hs2l, rfl⟩,
      _, s3 ++ (d4 ++ rest), ⟨d3, rfl, hd3, by omega, by omega, rfl⟩,
      _, d4 ++ rest, ⟨s3, rfl, hs3, Nat.zero_le _, hs3l, rfl⟩,
      _, rest, ⟨d4, rfl, hd4, by omega, by omega, rfl⟩,
      by rwa [getLast?_orElse_of_ne_nil' hd4ne], rfl, rfl⟩

/-! ## Scanning: `findall`/`sub` versus per-position matches -/

/-- Some position of `s` (scanned from the string start) carries a match. -/
def MS (re : RE) (s : List Char) : Prop :=
  ∃ w v q rest, s = w ++ v ∧ Reach re w.getLast? v q rest

theorem getLast?_cons_orElse {c : Char} {u : List Char} {p : Option Char} :
    ((c :: u).getLast? <|> p) = (u.getLast? <|> some c) := by
  cases u with
  | nil => simp
  | cons d t =>
    rw [getLast?_cons_of_ne_nil (by simp), getLast?_orElse_of_ne_nil' (by simp),
      getLast?_orElse_of_ne_nil' (by simp)]

theorem scanAllF_eq_nil_iff {re : RE} : ∀ {f : Nat} {p : Option Char} {s : List Char},
    s.length < f →
    (scanAllF re f p s = [] ↔
      ∀ w v, s = w ++ v → v ≠ [] → firstRest re (w.getLast? <|> p) v = none) := by
  intro f
  induction f with
  | zero => intro p s h; omega
  | succ f ih =>
    intro p s hlen
    cases s with
    | nil =>
      simp only [scanAllF]
      constructor
      · rintro - w v hw hv
        rcases List.append_eq_nil.mp hw.symm with ⟨rfl, rfl⟩
        exact absurd rfl hv
      · intro h; trivial
    | cons c t =>
      cases hfr : firstRest re p (c :: t) with
      | some rest =>
        rw [scanAllF, hfr]
        constructor
        · intro h
          by_cases hn : t.length + 1 - rest.length = 0 <;> simp [hn] at h
        · intro h
          have h0 := h [] (c :: t) rfl (by simp)
          simp only [List.getLast?_nil, Option.none_orElse] at h0
          rw [h0] at hfr
          exact absurd hfr (by simp)
      | none =>
        rw [scanAllF, hfr]
        rw [ih (by simp at hlen ⊢; omega)]
        constructor
        · intro h w v hw hv
          cases w with
          | nil =>
            simp at hw
            subst hw
            simp only [List.getLast?_nil, Option.none_orElse]
            exact hfr
          | cons c' w' =>
            rw [List.cons_append] at hw
            injection hw with hc hw'
            subst hc
            rw [getLast?_cons_orElse]
            exact h w' v hw' hv
        · intro h w v hw hv
          have h2 := h (c :: w) v (by rw [List.cons_append, hw]) hv
          rwa [getLast?_cons_orElse] at h2

theorem MS_iff_findall_ne_nil {re : RE} {s : List Char}
    (hne : ∀ p q rest, ¬Reach re p [] q rest) :
    MS re s ↔ findallL re s ≠ [] := by
  rw [Ne, findallL, scanAllF_eq_nil_iff (Nat.lt_succ_self _)]
  constructor
  · rintro ⟨w, v, q, rest, rfl, hr⟩ hall
    have hv : v ≠ [] := by rintro rfl; exact hne _ _ _ hr
    have h2 := hall w v rfl hv
    have h3 : (firstRest re (w.getLast? <|> none) v).isSome = true := by
      rw [Option.orElse_none]
      exact firstRest_isSome_iff.mpr ⟨q, rest, hr⟩
    rw [h2] at h3
    exact absurd h3 (by simp)
  · intro hall
    push_neg at hall
    obtain ⟨w, v, hw, hv, hfr⟩ := hall
    have h3 : (firstRest re (w.getLast? <|> none) v).isSome = true := by
      cases hx : firstRest re (w.getLast? <|> none) v with
      | none => exact absurd hx hfr
      | some r => simp
    rw [Option.orElse_none] at h3
    obtain ⟨q, rest, hr⟩ := firstRest_isSome_iff.mp h3
    exact ⟨w, v, q, rest, hw, hr⟩

/-! ## Decomposition of a substitution pass -/

/-- A piece of the input of one substitution pass: text the scan passed over,
or the span of one match it replaced. -/
inductive MPiece : Type where
  | keep (u : List Char)
  | hit (u : List Char)

def pieceIn : MPiece → List Char
  | .keep u => u
  | .hit u => u

def joinIn (ps : List MPiece) : List Char := (ps.map pieceIn).flatten

def pieceOut (repl : List Char) : MPiece → List Char
  | .keep u => u
  | .hit _ => repl

def joinOut (repl : List Char) (ps : List MPiece) : List Char :=
  (ps.map (pieceOut repl)).flatten

theorem joinIn_nil : joinIn [] = [] := rfl

theorem joinIn_cons (x : MPiece) (ps : List MPiece) :
    joinIn (x :: ps) = pieceIn x ++ joinIn ps := by
  simp [joinIn]

theorem joinOut_nil (repl : List Char) : joinOut repl [] = [] := rfl

theorem joinOut_cons (repl : List Char) (x : MPiece) (ps : List MPiece) :
    joinOut repl (x :: ps) = pieceOut repl x ++ joinOut repl ps := by
  simp [joinOut]

theorem getLast?_append_orElse (u w : List Char) (p : Option Char) :
    ((u ++ w).getLast? <|> p) = (w.getLast? <|> (u.getLast? <|> p)) := by
  cases hw : w with
  | nil => simp
  | cons d t =>
    rw [List.getLast?_append_of_ne_nil _ (by simp), getLast?_orElse_of_ne_nil' (by simp),
      getLast?_orElse_of_ne_nil' (by simp)]

/-- What one substitution pass guarantees about its pieces: the input and
output are the concatenations; every `hit` is the exact match the scan found
at its position; every position inside a `keep` was tried and failed; no two
`keep` pieces are adjacent. -/
structure SubDecomp (re : RE) (repl : List Char) (p0 : Option Char)
    (s o : List Char) (ps : List MPiece) : Prop where
  hin : joinIn ps = s
  hout : joinOut repl ps = o
  hits : ∀ l u r, ps = l ++ .hit u :: r →
    u ≠ [] ∧ firstRest re ((joinIn l).getLast? <|> p0) (u ++ joinIn r) = some (joinIn r)
  keeps : ∀ l u r, ps = l ++ .keep u :: r → ∀ u1 c u2, u = u1 ++ c :: u2 →
    firstRest re ((joinIn l ++ u1).getLast? <|> p0) (c :: (u2 ++ joinIn r)) = none
  nokk : ∀ l a b r, ps = l ++ .keep a :: .keep b :: r → False

theorem Reach_suffix {re : RE} {p : Option Char} {s : List Char} {q : Option Char}
    {rest : List Char} (h : Reach re p s q rest) : ∃ u, s = u ++ rest := by
  induction h with
  | lit hstrip => exact ⟨_, stripLit_eq_some.mp hstrip⟩
  | seq ha hb iha ihb =>
    obtain ⟨u1, rfl⟩ := iha
    obtain ⟨u2, rfl⟩ := ihb
    exact ⟨u1 ++ u2, by simp [List.append_assoc]⟩
  | altL ha iha => exact iha
  | altR hb ihb => exact ihb
  | wb h => exact ⟨[], rfl⟩
  | rep n h1 h2 => exact ⟨_, (List.take_append_drop n _).symm⟩

theorem getLast?_orElse_getD {u : List Char} (h : u ≠ []) (p : Option Char) (d : Char) :
    (u.getLast? <|> p) = some (u.getLast?.getD d) := by
  rw [List.getLast?_eq_getLast _ h]
  simp

theorem SubDecomp.prependHit {re : RE} {repl : List Char} {p0 : Option Char}
    {u rest o : List Char} {ps' : List MPiece}
    (hu : u ≠ []) (hd : SubDecomp re repl (u.getLast? <|> p0) rest o ps')
    (hfr : firstRest re p0 (u ++ rest) = some rest) :
    SubDecomp re repl p0 (u ++ rest) (repl ++ o) (.hit u :: ps') := by
  refine ⟨by rw [joinIn_cons, hd.hin]; rfl, by rw [joinOut_cons, hd.hout]; rfl, ?_, ?_, ?_⟩
  · rintro l u' r hl
    cases l with
    | nil =>
      simp only [List.nil_append] at hl
      injection hl with h1 h2
      injection h1 with h1
      subst h1
      subst h2
      refine ⟨hu, ?_⟩
      rw [joinIn_nil, List.getLast?_nil, Option.none_orElse, hd.hin]
      exact hfr
    | cons x l2 =>
      rw [List.cons_append] at hl
      injection hl with h1 h2
      subst h1
      have := (hd.hits l2 u' r h2).2
      refine ⟨(hd.hits l2 u' r h2).1, ?_⟩
      rw [joinIn_cons]
      show firstRest re (((pieceIn (MPiece.hit u) ++ joinIn l2)).getLast? <|> p0) _ = _
      rw [getLast?_append_orElse]
      exact this
  · rintro l u' r hl u1 c u2 hu'
    cases l with
    | nil =>
      simp only [List.nil_append] at hl
      injection hl with h1
      exact absurd h1 (by simp)
    | cons x l2 =>
      rw [List.cons_append] at hl
      injection hl with h1 h2
      subst h1
      have := hd.keeps l2 u' r h2 u1 c u2 hu'
      rw [joinIn_cons]
      show firstRest re ((pieceIn (MPiece.hit u) ++ joinIn l2 ++ u1).getLast? <|> p0) _ = _
      rw [List.append_assoc, getLast?_append_orElse]
      exact this
  · rintro l a b r hl
    cases l with
    | nil =>
      simp only [List.nil_append] at hl
      injection hl with h1
      exact absurd h1 (by simp)
    | cons x l2 =>
      rw [List.cons_append] at hl
      injection hl with h1 h2
      exact hd.nokk l2 a b r h2

theorem ctx_keep_cons {c : Char} {u : List Char} {l2 : List MPiece} {w : List Char}
    {p0 : Option Char} :
    ((joinIn (MPiece.keep (c :: u) :: l2) ++ w).getLast? <|> p0) =
      ((joinIn (MPiece.keep u :: l2) ++ w).getLast? <|> some c) := by
  simp only [joinIn_cons, pieceIn, List.cons_append, List.append_assoc]
  exact getLast?_cons_orElse

theorem ctx2_keep_cons {c : Char} {u : List Char} {l2 : List MPiece} {p0 : Option Char} :
    ((joinIn (MPiece.keep (c :: u) :: l2)).getLast? <|> p0) =
      ((joinIn (MPiece.keep u :: l2)).getLast? <|> some c) := by
  simp only [joinIn_cons, pieceIn, List.cons_append, List.append_assoc]
  exact getLast?_cons_orElse

theorem ctx_keep_single {c : Char} {l2 : List MPiece} {w : List Char} {p0 : Option Char} :
    ((joinIn (MPiece.keep [c] :: l2) ++ w).getLast? <|> p0) =
      ((joinIn l2 ++ w).getLast? <|> some c) := by
  simp only [joinIn_cons, pieceIn, List.cons_append, List.append_assoc, List.nil_append]
  exact getLast?_cons_orElse

theorem ctx2_keep_single {c : Char} {l2 : List MPiece} {p0 : Option Char} :
    ((joinIn (MPiece.keep [c] :: l2)).getLast? <|> p0) =
      ((joinIn l2).getLast? <|> some c) := by
  simp only [joinIn_cons, pieceIn, List.cons_append, List.nil_append]
  exact getLast?_cons_orElse

theorem SubDecomp.prependKeep {re : RE} {repl : List Char} {p0 : Option Char} {c : Char}
    {t o : List Char} {ps' : List MPiece}
    (hd : SubDecomp re repl (some c) t o ps')
    (hfr : firstRest re p0 (c :: t) = none) :
    ∃ ps, SubDecomp re repl p0 (c :: t) (c :: o) ps := by
  classical
  by_cases hk : ∃ u r', ps' = .keep u :: r'
  · obtain ⟨u, r', rfl⟩ := hk
    refine ⟨.keep (c :: u) :: r', ⟨?_, ?_, ?_, ?_, ?_⟩⟩
    · have h0 := hd.hin
      rw [joinIn_cons] at h0 ⊢
      simp only [pieceIn] at h0 ⊢
      rw [List.cons_append, h0]
    · have h0 := hd.hout
      rw [joinOut_cons] at h0 ⊢
      simp only [pieceOut] at h0 ⊢
      rw [List.cons_append, h0]
    · rintro l u' r hl
      cases l with
      | nil =>
        simp only [List.nil_append] at hl
        injection hl with h1
        exact absurd h1 (by simp)
      | cons x l2 =>
        rw [List.cons_append] at hl
        injection hl with h1 h2
        subst h1
        have h3 := hd.hits (.keep u :: l2) u' r (by rw [h2]; rfl)
        exact ⟨h3.1, by rw [ctx2_keep_cons]; exact h3.2⟩
    · rintro l u' r hl u1 c' u2 hu'
      cases l with
      | nil =>
        simp only [List.nil_append] at hl
        injection hl with h1 h2
        injection h1 with h1
        cases u1 with
        | nil =>
          simp only [List.nil_append] at hu'
          rw [hu'] at h1
          injection h1 with hc1 hc2
          rw [← hc1, ← hc2, ← h2]
          rw [joinIn_nil, List.nil_append, List.getLast?_nil, Option.none_orElse]
          have h4 : u ++ joinIn r' = t := by
            have h5 := hd.hin
            rw [joinIn_cons] at h5
            exact h5
          rw [h4]
          exact hfr
        | cons c0 u1' =>
          rw [hu', List.cons_append] at h1
          injection h1 with hc1 hc2
          rw [← hc1, ← h2]
          have h6 := hd.keeps [] u r' rfl u1' c' u2 hc2
          rw [joinIn_nil, List.nil_append] at h6
          rw [joinIn_nil, List.nil_append, getLast?_cons_orElse]
          exact h6
      | cons x l2 =>
        rw [List.cons_append] at hl
        injection hl with h1 h2
        subst h1
        have h6 := hd.keeps (.keep u :: l2) u' r (by rw [h2]; rfl) u1 c' u2 hu'
        rw [ctx_keep_cons]
        exact h6
    · rintro l a b r hl
      cases l with
      | nil =>
        simp only [List.nil_append] at hl
        injection hl with h1 h2
        exact hd.nokk [] u b r (by rw [h2]; rfl)
      | cons x l2 =>
        rw [List.cons_append] at hl
        injection hl with h1 h2
        exact hd.nokk (.keep u :: l2) a b r (by rw [h2]; rfl)
  · refine ⟨.keep [c] :: ps', ⟨?_, ?_, ?_, ?_, ?_⟩⟩
    · rw [joinIn_cons, hd.hin]
      rfl
    · rw [joinOut_cons, hd.hout]
      rfl
    · rintro l u' r hl
      cases l with
      | nil =>
        simp only [List.nil_append] at hl
        injection hl with h1
        exact absurd h1 (by simp)
      | cons x l2 =>
        rw [List.cons_append] at hl
        injection hl with h1 h2
        subst h1
        have h3 := hd.hits l2 u' r h2
        exact ⟨h3.1, by rw [ctx2_keep_single]; exact h3.2⟩
    · rintro l u' r hl u1 c' u2 hu'
      cases l with
      | nil =>
        simp only [List.nil_append] at hl
        injection hl with h1 h2
        injection h1 with h1
        subst h2
        cases u1 with
        | nil =>
          simp only [List.nil_append] at hu'
          rw [hu'] at h1
          injection h1 with hc1 hc2
          subst hc1
          have hu2 : u2 = [] := by simpa using hc2
          subst hu2
          rw [joinIn_nil, List.nil_append, List.getLast?_nil, Option.none_orElse,
            List.nil_append, hd.hin]
          exact hfr
        | cons c0 u1' =>
          rw [hu', List.cons_append] at h1
          injection h1 with hc1 hc2
          exact absurd hc2 (by simp)
      | cons x l2 =>
        rw [List.cons_append] at hl
        injection hl with h1 h2
        subst h1
        have h6 := hd.keeps l2 u' r h2 u1 c' u2 hu'
        rw [ctx_keep_single]
        exact h6
    · rintro l a b r hl
      cases l with
      | nil =>
        simp only [List.nil_append] at hl
        injection hl with h1 h2
        exact absurd ⟨b, r, h2⟩ hk
      | cons x l2 =>
        rw [List.cons_append] at hl
        injection hl with h1 h2
        exact hd.nokk l2 a b r h2

/-- Every substitution pass decomposes its input into passed-over text and
exactly-matched spans, provided no match of the pattern is empty. -/
theorem subAllF_decomp (re : RE) (repl : List Char)
    (hcons : ∀ p s q rest, Reach re p s q rest → rest.length < s.length) :
    ∀ (f : Nat) (p0 : Option Char) (s : List Char), s.length < f →
      ∃ ps, SubDecomp re repl p0 s (subAllF re repl f p0 s) ps := by
  intro f
  induction f with
  | zero => intro p0 s h; omega
  | succ f ih =>
    intro p0 s hlen
    cases s with
    | nil =>
      refine ⟨[], rfl, rfl, ?_, ?_, ?_⟩
      · rintro l u r hl; exact absurd hl (by simp)
      · rintro l u r hl u1 c u2 hu; exact absurd hl (by simp)
      · rintro l a b r hl; exact absurd hl (by simp)
    | cons c t =>
      cases hfr : firstRest re p0 (c :: t) with
      | none =>
        have hlt : t.length < f := by simp at hlen; omega
        obtain ⟨ps', hd⟩ := ih (some c) t hlt
        obtain ⟨ps, hps⟩ := hd.prependKeep hfr
        refine ⟨ps, ?_⟩
        rw [subAllF, hfr]
        exact hps
      | some rest =>
        obtain ⟨q, hreach⟩ := firstRest_eq_some_reach hfr
        obtain ⟨u, hu⟩ := Reach_suffix hreach
        have hct : (c :: t).length = t.length + 1 := rfl
        have hrlen : rest.length < (c :: t).length := hcons _ _ _ _ hreach
        have hune : u ≠ [] := by
          intro h0
          rw [h0, List.nil_append] at hu
          rw [hu] at hrlen
          omega
        have hn : (c :: t).length - rest.length = u.length := by
          rw [hu]
          simp
        have htake : (c :: t).take ((c :: t).length - rest.length) = u := by
          rw [hn, hu, List.take_left]
        have hlt : rest.length < f := by omega
        obtain ⟨ps', hd⟩ := ih (u.getLast? <|> p0) rest hlt
        refine ⟨.hit u :: ps', ?_⟩
        rw [subAllF, hfr]
        rw [hn] at htake
        have hlen0 : ¬(u.length = 0) := by
          simpa [List.length_eq_zero] using hune
        simp only [hn, htake]
        rw [if_neg hlen0]
        rw [← getLast?_orElse_getD hune p0 c]
        rw [hu]
        exact SubDecomp.prependHit hune hd (hu ▸ hfr)

/-! ## Locating a bracket-free substring of a substitution output -/

theorem head_mem_of_eq_cons {u a : List Char} {c : Char} {x : List Char}
    (h : u ++ a = c :: x) (hu : u ≠ []) : c ∈ u := by
  cases u with
  | nil => exact absurd rfl hu
  | cons d t =>
    rw [List.cons_append] at h
    injection h with h1 h2
    subst h1
    simp

theorem last_mem_of_append_singleton {w u X : List Char} {x : Char}
    (h : w ++ u = X ++ [x]) (hu : u ≠ []) : x ∈ u := by
  have h1 : (w ++ u).getLast? = some x := by
    rw [h, List.getLast?_append_of_ne_nil _ (by simp)]
    rfl
  rw [List.getLast?_append_of_ne_nil _ hu, List.getLast?_eq_getLast _ hu] at h1
  injection h1 with h1
  rw [← h1]
  exact List.getLast_mem hu

/-- A nonempty bracket-free block sitting inside `[interior]` sits inside the
interior. -/
theorem sandwich_no_brackets {interior w u a : List Char}
    (h : w ++ u ++ a = '[' :: (interior ++ [']'])) (hu : u ≠ [])
    (h1 : '[' ∉ u) (h2 : ']' ∉ u) : ∃ x y, interior = x ++ u ++ y := by
  cases w with
  | nil =>
    rw [List.nil_append] at h
    exact absurd (head_mem_of_eq_cons h hu) h1
  | cons d w' =>
    rw [List.cons_append, List.cons_append] at h
    injection h with hd h
    subst hd
    rcases List.append_eq_append_iff.mp h with ⟨b, hb1, hb2⟩ | ⟨c2, hc1, hc2⟩
    · exact ⟨w', b, by rw [hb1, List.append_assoc]⟩
    · cases c2 with
      | nil =>
        rw [List.append_nil] at hc1
        exact ⟨w', [], by rw [← hc1, List.append_nil]⟩
      | cons e c2' =>
        have he : e = ']' ∧ c2' = [] := by
          have := hc2.symm
          rw [List.cons_append] at this
          injection this with x1 x2
          exact ⟨x1, (List.append_eq_nil.mp x2).1⟩
        obtain ⟨rfl, rfl⟩ := he
        exact absurd (last_mem_of_append_singleton hc1 hu) h2

/-- A nonempty bracket-free block of the output of a pass lies inside one
kept piece, or inside the placeholder's interior. -/
theorem locate {repl interior : List Char} (hrepl : repl = '[' :: (interior ++ [']'])) :
    ∀ (ps : List MPiece) (w u v : List Char),
      (∀ l a b r, ps = l ++ .keep a :: .keep b :: r → False) →
      joinOut repl ps = w ++ u ++ v → u ≠ [] → '[' ∉ u → ']' ∉ u →
      (∃ ps1 k1 k2 ps2, ps = ps1 ++ .keep (k1 ++ u ++ k2) :: ps2 ∧
        w = joinOut repl ps1 ++ k1 ∧ v = k2 ++ joinOut repl ps2) ∨
      (∃ x y, interior = x ++ u ++ y) := by
  intro ps
  induction ps with
  | nil =>
    intro w u v hkk hj hu h1 h2
    rw [joinOut_nil] at hj
    rcases List.append_eq_nil.mp hj.symm with ⟨hwu, -⟩
    rcases List.append_eq_nil.mp hwu with ⟨-, rfl⟩
    exact absurd rfl hu
  | cons piece ps' ihp =>
    intro w u v hkk hj hu h1 h2
    have hkk' : ∀ l a b r, ps' = l ++ .keep a :: .keep b :: r → False := by
      intro l a b r hl
      exact hkk (piece :: l) a b r (by rw [hl]; rfl)
    rw [joinOut_cons, List.append_assoc] at hj
    rcases List.append_eq_append_iff.mp hj with ⟨a', hw, hj'⟩ | ⟨c', hchunk, hj'⟩
    · rcases ihp a' u v hkk' (by rw [hj', List.append_assoc]) hu h1 h2 with
        ⟨ps1', k1, k2, ps2', hps', hw', hv'⟩ | hint
      · refine Or.inl ⟨piece :: ps1', k1, k2, ps2', by rw [hps']; rfl, ?_, hv'⟩
        rw [hw, hw', joinOut_cons, List.append_assoc]
      · exact Or.inr hint
    · cases c' with
      | nil =>
        rw [List.nil_append] at hj'
        rcases ihp [] u v hkk' (by rw [← hj']; rfl) hu h1 h2 with
          ⟨ps1', k1, k2, ps2', hps', hw', hv'⟩ | hint
        · rcases List.append_eq_nil.mp hw'.symm with ⟨hj1, rfl⟩
          refine Or.inl ⟨piece :: ps1', [], k2, ps2', by rw [hps']; rfl, ?_, hv'⟩
          rw [List.append_nil] at hchunk ⊢
          rw [joinOut_cons, hj1, List.append_nil, hchunk]
        · exact Or.inr hint
      | cons e a' =>
        rcases List.append_eq_append_iff.mp hj' with ⟨a2, hc', hv'⟩ | ⟨b2, hub, hjb⟩
        · cases piece with
          | keep k =>
            refine Or.inl ⟨[], w, a2, ps', ?_, by rw [joinOut_nil]; rfl, hv'⟩
            have : k = w ++ u ++ a2 := by
              have hk : pieceOut repl (MPiece.keep k) = k := rfl
              rw [hk] at hchunk
              rw [hchunk, hc', List.append_assoc]
            rw [this]
            rfl
          | hit hmatch =>
            have : w ++ u ++ a2 = '[' :: (interior ++ [']']) := by
              have hk : pieceOut repl (MPiece.hit hmatch) = repl := rfl
              rw [hk, hrepl] at hchunk
              rw [List.append_assoc, ← hc', ← hchunk]
            exact Or.inr (sandwich_no_brackets this hu h1 h2)
        · cases piece with
          | hit hmatch =>
            have hk : pieceOut repl (MPiece.hit hmatch) = repl := rfl
            rw [hk, hrepl] at hchunk
            have hch : w ++ (e :: a') = ('[' :: interior) ++ [']'] := by
              rw [← hchunk]
              rfl
            have : (']' : Char) ∈ (e :: a') :=
              last_mem_of_append_singleton hch (by simp)
            rw [hub] at h2
            exact absurd (List.mem_append.mpr (Or.inl this)) h2
          | keep k =>
            cases b2 with
            | nil =>
              rw [List.append_nil] at hub
              rw [List.nil_append] at hjb
              refine Or.inl ⟨[], w, [], ps', ?_, by rw [joinOut_nil]; rfl, by rw [hjb]; rfl⟩
              have : k = w ++ u ++ [] := by
                have hk : pieceOut repl (MPiece.keep k) = k := rfl
                rw [hk] at hchunk
                rw [hchunk, hub, List.append_nil]
              rw [this]
              rfl
            | cons f b2' =>
              cases hps' : ps' with
              | nil =>
                rw [hps', joinOut_nil] at hjb
                exact absurd hjb.symm (by simp)
              | cons piece2 r2 =>
                cases piece2 with
                | keep k2 => exact absurd (hkk [] k k2 r2 (by rw [hps']; rfl)) (fun x => x)
                | hit h2' =>
                  rw [hps', joinOut_cons] at hjb
                  have hk : pieceOut repl (MPiece.hit h2') = repl := rfl
                  rw [hk, hrepl] at hjb
                  have hf : f = '[' := by
                    have := hjb
                    rw [List.cons_append] at this
                    injection this with x1 x2
                    exact x1.symm
                  rw [hub, hf] at h1
                  exact absurd (List.mem_append.mpr (Or.inr (by simp))) h1

/-! ## Transferring a match of the output back to the input -/

theorem joinIn_append (a b : List MPiece) : joinIn (a ++ b) = joinIn a ++ joinIn b := by
  simp [joinIn]

theorem joinOut_append (repl : List Char) (a b : List MPiece) :
    joinOut repl (a ++ b) = joinOut repl a ++ joinOut repl b := by
  simp [joinOut]

/-- The boundary before a keep-piece position transfers from the output to
the input: the character before it is either the same kept character, or the
closing bracket in the output standing for a match whose own trailing `\b`
gives the input-side boundary. -/
theorem prev_transfer {re : RE} {repl : List Char}
    {s o : List Char} {ps : List MPiece}
    (hd : SubDecomp re repl none s o ps)
    (hQprop : ∀ p v q rest, Reach re p v q rest →
      ∃ uu, v = uu ++ rest ∧ uu ≠ [] ∧ boundary p uu.head? = true ∧
        boundary uu.getLast? rest.head? = true) :
    ∀ (ps1 : List MPiece), ∀ (rest0 : List MPiece) (uh : Char),
      ps = ps1 ++ rest0 → (joinIn rest0).head? = some uh →
      boundary (joinOut repl ps1).getLast? (some uh) = true →
      boundary (joinIn ps1).getLast? (some uh) = true := by
  intro ps1
  induction ps1 using List.reverseRecOn with
  | nil => intro rest0 uh hps hh hb; exact hb
  | append_singleton ps0 x ihp =>
    intro rest0 uh hps hh hb
    cases x with
    | keep kk =>
      cases hkk : kk with
      | nil =>
        subst hkk
        rw [joinIn_append] at *
        rw [joinOut_append] at hb
        simp only [joinIn_cons, joinOut_cons, pieceIn, pieceOut, joinIn_nil, joinOut_nil,
          List.append_nil] at hb ⊢
        refine ihp (.keep [] :: rest0) uh ?_ ?_ hb
        · rw [hps, List.append_assoc]
          rfl
        · rw [joinIn_cons]
          exact hh
      | cons c0 kk' =>
        subst hkk
        rw [joinIn_append]
        rw [joinOut_append] at hb
        simp only [joinIn_cons, joinOut_cons, pieceIn, pieceOut, joinIn_nil, joinOut_nil,
          List.append_nil] at hb ⊢
        rw [List.getLast?_append_of_ne_nil _ (by simp)] at hb ⊢
        exact hb
    | hit hu =>
      have hsplit : ps = ps0 ++ .hit hu :: rest0 := by
        rw [hps, List.append_assoc]
        rfl
      obtain ⟨hune, hfr⟩ := hd.hits ps0 hu rest0 hsplit
      obtain ⟨qq, hreach⟩ := firstRest_eq_some_reach hfr
      obtain ⟨uu, hequ, huune, hb1, hb2⟩ := hQprop _ _ _ _ hreach
      have huu : uu = hu := (List.append_cancel_right hequ.symm)
      subst huu
      rw [joinIn_append]
      simp only [joinIn_cons, pieceIn, joinIn_nil, List.append_nil]
      rw [List.getLast?_append_of_ne_nil _ hune]
      rw [hh] at hb2
      exact hb2

/-- The boundary after a keep-piece position transfers likewise, through the
opening bracket and the following match's leading `\b`. -/
theorem next_transfer {re : RE} {repl : List Char}
    {s o : List Char} {ps : List MPiece}
    (hd : SubDecomp re repl none s o ps)
    (hQprop : ∀ p v q rest, Reach re p v q rest →
      ∃ uu, v = uu ++ rest ∧ uu ≠ [] ∧ boundary p uu.head? = true ∧
        boundary uu.getLast? rest.head? = true) :
    ∀ (ps2 : List MPiece), ∀ (lacc : List MPiece) (ul : Char),
      ps = lacc ++ ps2 → (joinIn lacc).getLast? = some ul →
      boundary (some ul) (joinOut repl ps2).head? = true →
      boundary (some ul) (joinIn ps2).head? = true := by
  intro ps2
  induction ps2 with
  | nil => intro lacc ul hps hl hb; exact hb
  | cons x ps2' ihp =>
    intro lacc ul hps hl hb
    cases x with
    | keep kk =>
      cases hkk : kk with
      | nil =>
        subst hkk
        rw [joinIn_cons] at *
        rw [joinOut_cons] at hb
        simp only [pieceIn, pieceOut, List.nil_append] at hb ⊢
        refine ihp (lacc ++ [.keep []]) ul ?_ ?_ hb
        · rw [hps, List.append_assoc]
          rfl
        · rw [joinIn_append]
          simp only [joinIn_cons, pieceIn, joinIn_nil, List.append_nil]
          exact hl
      | cons c0 kk' =>
        subst hkk
        rw [joinIn_cons, joinOut_cons] at *
        simp only [pieceIn, pieceOut] at hb ⊢
        rw [List.head?_append_of_ne_nil _ (by simp)] at hb ⊢
        exact hb
    | hit hu =>
      obtain ⟨hune, hfr⟩ := hd.hits lacc hu ps2' hps
      obtain ⟨qq, hreach⟩ := firstRest_eq_some_reach hfr
      obtain ⟨uu, hequ, huune, hb1, hb2⟩ := hQprop _ _ _ _ hreach
      have huu : uu = hu := (List.append_cancel_right hequ.symm)
      subst huu
      rw [joinIn_cons]
      simp only [pieceIn]
      rw [List.head?_append_of_ne_nil _ hune]
      rw [Option.orElse_none, hl] at hb1
      exact hb1

/-- A match of pattern `reP` somewhere in the output of a substitution pass
for `reQ` transfers back to a `reP`-match in the input, unless the matched
text sits inside the placeholder interior. -/
theorem transfer_main {reQ reP : RE} {repl interior : List Char} {s o : List Char}
    {ps : List MPiece} (ShapeP : List Char → Prop)
    (hrepl : repl = '[' :: (interior ++ [']']))
    (hd : SubDecomp reQ repl none s o ps)
    (hQprop : ∀ p v q rest, Reach reQ p v q rest →
      ∃ uu, v = uu ++ rest ∧ uu ≠ [] ∧ boundary p uu.head? = true ∧
        boundary uu.getLast? rest.head? = true)
    (hPiff : ∀ (p : Option Char) (v rest : List Char),
      (∃ q, Reach reP p v q rest) ↔
        ∃ u, v = u ++ rest ∧ u ≠ [] ∧ ShapeP u ∧ boundary p u.head? = true ∧
          boundary u.getLast? rest.head? = true)
    (hPchar : ∀ u, ShapeP u → '[' ∉ u ∧ ']' ∉ u)
    (hPint : ∀ u, ShapeP u → ∀ x y, interior ≠ x ++ u ++ y)
    (hms : MS reP o) : MS reP s := by
  obtain ⟨w, v, q, rest, ho, hreach⟩ := hms
  obtain ⟨u, rfl, hune, hshape, hbl, hbr⟩ := (hPiff _ _ _).mp ⟨q, hreach⟩
  obtain ⟨hnl, hnr⟩ := hPchar u hshape
  have hjo : joinOut repl ps = w ++ u ++ rest := by
    rw [hd.hout, ho, List.append_assoc]
  rcases locate hrepl ps w u rest hd.nokk hjo hune hnl hnr with
    ⟨ps1, k1, k2, ps2, hps, hw, hv⟩ | ⟨x, y, hint⟩
  · have hb1 : boundary (joinIn ps1 ++ k1).getLast? u.head? = true := by
      cases k1 with
      | nil =>
        cases u with
        | nil => exact absurd rfl hune
        | cons uh u' =>
          rw [List.append_nil]
          rw [hw, List.append_nil] at hbl
          exact prev_transfer hd hQprop ps1 _ uh hps (by simp [joinIn_cons, pieceIn]) hbl
      | cons c1 k1' =>
        rw [List.getLast?_append_of_ne_nil _ (by simp)]
        rw [hw, List.getLast?_append_of_ne_nil _ (by simp)] at hbl
        exact hbl
    have hb2 : boundary u.getLast? (k2 ++ joinIn ps2).head? = true := by
      cases k2 with
      | nil =>
        obtain ⟨ul, hul⟩ : ∃ ul, u.getLast? = some ul :=
          ⟨u.getLast hune, List.getLast?_eq_getLast u hune⟩
        rw [List.nil_append, hul]
        rw [hv, List.nil_append, hul] at hbr
        refine next_transfer hd hQprop ps2 (ps1 ++ [.keep ((k1 ++ u) ++ [])]) ul ?_ ?_ hbr
        · simp only [hps, List.append_assoc, List.singleton_append]
        · rw [joinIn_append]
          simp only [joinIn_cons, joinIn_nil, pieceIn, List.append_nil]
          rw [List.getLast?_append_of_ne_nil _
              (fun hcon => hune (List.append_eq_nil.mp hcon).2),
            List.getLast?_append_of_ne_nil _ hune]
          exact hul
      | cons c2 k2' =>
        rw [List.head?_append_of_ne_nil _ (by simp)]
        rw [hv, List.head?_append_of_ne_nil _ (by simp)] at hbr
        exact hbr
    obtain ⟨q', hr'⟩ := (hPiff (joinIn ps1 ++ k1).getLast? (u ++ (k2 ++ joinIn ps2))
      (k2 ++ joinIn ps2)).mpr ⟨u, rfl, hune, hshape, hb1, hb2⟩
    refine ⟨joinIn ps1 ++ k1, u ++ (k2 ++ joinIn ps2), q', k2 ++ joinIn ps2, ?_, hr'⟩
    rw [← hd.hin, hps, joinIn_append]
    simp [joinIn_cons, pieceIn, List.append_assoc]
  · exact absurd hint (hPint u hshape x y)

/-! ## Per-pattern facts feeding the transfer argument -/

theorem reachProp_of_iff {re : RE} {Shape : List Char → Prop}
    (hiff : ∀ (p : Option Char) (v rest : List Char),
      (∃ q, Reach re p v q rest) ↔
        ∃ u, v = u ++ rest ∧ u ≠ [] ∧ Shape u ∧ boundary p u.head? = true ∧
          boundary u.getLast? rest.head? = true) :
    ∀ p v q rest, Reach re p v q rest →
      ∃ uu, v = uu ++ rest ∧ uu ≠ [] ∧ boundary p uu.head? = true ∧
        boundary uu.getLast? rest.head? = true := by
  intro p v q rest h
  obtain ⟨u, h1, h2, -, h4, h5⟩ := (hiff p v rest).mp ⟨q, h⟩
  exact ⟨u, h1, h2, h4, h5⟩

theorem reach_consumes_of_iff {re : RE} {Shape : List Char → Prop}
    (hiff : ∀ (p : Option Char) (v rest : List Char),
      (∃ q, Reach re p v q rest) ↔
        ∃ u, v = u ++ rest ∧ u ≠ [] ∧ Shape u ∧ boundary p u.head? = true ∧
          boundary u.getLast? rest.head? = true) :
    ∀ p s q rest, Reach re p s q rest → rest.length < s.length := by
  intro p s q rest h
  obtain ⟨u, rfl, hune, -, -, -⟩ := (hiff p s rest).mp ⟨q, h⟩
  rw [List.length_append]
  have : 0 < u.length := List.length_pos.mpr hune
  omega

theorem reach_nil_of_iff {re : RE} {Shape : List Char → Prop}
    (hiff : ∀ (p : Option Char) (v rest : List Char),
      (∃ q, Reach re p v q rest) ↔
        ∃ u, v = u ++ rest ∧ u ≠ [] ∧ Shape u ∧ boundary p u.head? = true ∧
          boundary u.getLast? rest.head? = true) :
    ∀ p q rest, ¬Reach re p [] q rest := by
  intro p q rest h
  obtain ⟨u, hu, hune, -⟩ := (hiff p [] rest).mp ⟨q, h⟩
  exact hune (List.append_eq_nil.mp hu.symm).1

/-- Every character that any of the five PII shapes can contain. -/
def maskCh (c : Char) : Bool :=
  memClass Patterns.localR c || c == '@' || memClass Patterns.domainR c || c == '.' ||
    memClass Patterns.tldR c || memClass Patterns.digitR c || memClass Patterns.hyphR c ||
    memClass Patterns.cardSepR c || isDigitCh c || c == '-'

/-- A character witnessing that a fragment is PII-like: `@` or a digit.
No placeholder interior contains such a character. -/
def goodCh (c : Char) : Bool := c == '@' || isDigitCh c

theorem no_brackets_of_chars {Shape : List Char → Prop}
    (hchars : ∀ u, Shape u → ∀ c ∈ u, maskCh c = true) :
    ∀ u, Shape u → '[' ∉ u ∧ ']' ∉ u := by
  intro u hs
  constructor <;> intro hc <;> exact absurd (hchars u hs _ hc) (by decide)

theorem interior_incompat {interior : List Char} {Shape : List Char → Prop}
    (hgood : ∀ u, Shape u → ∃ c ∈ u, goodCh c = true)
    (hbad : ∀ c ∈ interior, goodCh c = false) :
    ∀ u, Shape u → ∀ x y, interior ≠ x ++ u ++ y := by
  intro u hs x y heq
  obtain ⟨c, hcu, hcg⟩ := hgood u hs
  have hci : c ∈ interior := by rw [heq]; simp [hcu]
  rw [hbad c hci] at hcg
  exact absurd hcg (by simp)

theorem EmailShape_chars {u : List Char} (h : EmailShape u) : ∀ c ∈ u, maskCh c = true := by
  obtain ⟨a, b, c0, rfl, ha, -, hb, -, hc0, -⟩ := h
  intro c hc
  simp only [List.mem_append, List.mem_cons] at hc
  rcases hc with h1 | rfl | h1 | rfl | h1
  · simp [maskCh, ha c h1]
  · decide
  · simp [maskCh, hb c h1]
  · decide
  · simp [maskCh, hc0 c h1]

theorem SsnShape_chars {u : List Char} (h : SsnShape u) : ∀ c ∈ u, maskCh c = true := by
  obtain ⟨d1, hh, d2, rfl, hd1, -, hhm, -, hd2, -⟩ := h
  intro c hc
  simp only [List.mem_append] at hc
  rcases hc with (h1 | h1) | h1
  · simp [maskCh, hd1 c h1]
  · simp [maskCh, hhm c h1]
  · simp [maskCh, hd2 c h1]

theorem CardShape_chars {u : List Char} (h : CardShape u) : ∀ c ∈ u, maskCh c = true := by
  obtain ⟨d1, s1, d2, s2, d3, s3, d4, rfl, hd1, -, hs1, -, hd2, -, hs2, -, hd3, -, hs3, -,
    hd4, -⟩ := h
  intro c hc
  simp only [List.mem_append] at hc
  rcases hc with (((((h1 | h1) | h1) | h1) | h1) | h1) | h1
  · simp [maskCh, hd1 c h1]
  · simp [maskCh, hs1 c h1]
  · simp [maskCh, hd2 c h1]
  · simp [maskCh, hs2 c h1]
  · simp [maskCh, hd3 c h1]
  · simp [maskCh, hs3 c h1]
  · simp [maskCh, hd4 c h1]

theorem IpShape_chars {u : List Char} (h : IpShape u) : ∀ c ∈ u, maskCh c = true := by
  obtain ⟨d1, d2, d3, d4, rfl, hd1, -, -, hd2, -, -, hd3, -, -, hd4, -, -⟩ := h
  intro c hc
  simp only [List.mem_append, List.mem_cons] at hc
  rcases hc with h1 | rfl | h1 | rfl | h1 | rfl | h1
  · simp [maskCh, hd1 c h1]
  · decide
  · simp [maskCh, hd2 c h1]
  · decide
  · simp [maskCh, hd3 c h1]
  · decide
  · simp [maskCh, hd4 c h1]

theorem optHyphen_chars {h : List Char} (ho : optHyphen h) : ∀ c ∈ h, maskCh c = true := by
  rcases ho with rfl | rfl
  · intro c hc; simp at hc
  · intro c hc
    simp only [List.mem_singleton] at hc
    subst hc
    decide

theorem MobileShape_chars {u : List Char} (h : MobileShape u) : ∀ c ∈ u, maskCh c = true := by
  obtain ⟨pre, h1, d1, h2, d2, hpre, rfl, hh1, hd1, -, hh2, hd2, -⟩ := h
  intro c hc
  simp only [List.mem_append] at hc
  rcases hc with (((hp | hp) | hp) | hp) | hp
  · rcases hpre with rfl | rfl | rfl | rfl | rfl | rfl <;>
      (simp only [List.mem_cons, List.not_mem_nil, or_false] at hp;
       rcases hp with rfl | rfl | rfl <;> decide)
  · exact optHyphen_chars hh1 c hp
  · simp [maskCh, hd1 c hp]
  · exact optHyphen_chars hh2 c hp
  · simp [maskCh, hd2 c hp]

theorem LandlineShape_chars {u : List Char} (h : CodeLandlineShape u) :
    ∀ c ∈ u, maskCh c = true := by
  obtain ⟨g1, h1, g2, h2, g3, rfl, hg1, -, hh1, hg2, -, hh2, hg3, -⟩ := h
  intro c hc
  simp only [List.mem_cons, List.mem_append] at hc
  rcases hc with rfl | ((((hp | hp) | hp) | hp) | hp)
  · decide
  · simp [maskCh, hg1 c hp]
  · exact optHyphen_chars hh1 c hp
  · simp [maskCh, hg2 c hp]
  · exact optHyphen_chars hh2 c hp
  · simp [maskCh, hg3 c hp]

theorem PhoneShape_chars {u : List Char} (h : PhoneShape u) : ∀ c ∈ u, maskCh c = true := by
  rcases h with h | h
  · exact MobileShape_chars h
  · exact LandlineShape_chars h

theorem EmailShape_good {u : List Char} (h : EmailShape u) : ∃ c ∈ u, goodCh c = true := by
  obtain ⟨a, b, c0, rfl, -⟩ := h
  exact ⟨'@', by simp, by decide⟩

theorem SsnShape_good {u : List Char} (h : SsnShape u) : ∃ c ∈ u, goodCh c = true := by
  obtain ⟨d1, hh, d2, rfl, hd1, hlen, -⟩ := h
  cases d1 with
  | nil => simp at hlen
  | cons d d' =>
    refine ⟨d, by simp, ?_⟩
    have := memClass_digitR_iff.mp (hd1 d (by simp))
    simp [goodCh, this]

theorem CardShape_good {u : List Char} (h : CardShape u) : ∃ c ∈ u, goodCh c = true := by
  obtain ⟨d1, s1, d2, s2, d3, s3, d4, rfl, hd1, hlen, -⟩ := h
  cases d1 with
  | nil => simp at hlen
  | cons d d' =>
    refine ⟨d, by simp, ?_⟩
    have := memClass_digitR_iff.mp (hd1 d (by simp))
    simp [goodCh, this]

theorem IpShape_good {u : List Char} (h : IpShape u) : ∃ c ∈ u, goodCh c = true := by
  obtain ⟨d1, d2, d3, d4, rfl, hd1, hlen, -⟩ := h
  cases d1 with
  | nil => simp at hlen
  | cons d d' =>
    refine ⟨d, by simp, ?_⟩
    have := memClass_digitR_iff.mp (hd1 d (by simp))
    simp [goodCh, this]

theorem PhoneShape_good {u : List Char} (h : PhoneShape u) : ∃ c ∈ u, goodCh c = true := by
  rcases h with h | h
  · obtain ⟨pre, h1, d1, h2, d2, hpre, rfl, -⟩ := h
    refine ⟨'0', ?_, by decide⟩
    rcases hpre with rfl | rfl | rfl | rfl | rfl | rfl <;> simp
  · obtain ⟨g1, h1, g2, h2, g3, rfl, -⟩ := h
    exact ⟨'0', by simp, by decide⟩

/-- The output of one substitution pass contains no match of the very pattern
that was substituted: a surviving match would start inside a kept piece,
contradicting the scan's completeness at every kept position. -/
theorem no_self_match {reQ : RE} {repl interior : List Char} {s o : List Char}
    {ps : List MPiece} (ShapeQ : List Char → Prop)
    (hrepl : repl = '[' :: (interior ++ [']']))
    (hd : SubDecomp reQ repl none s o ps)
    (hQiff : ∀ (p : Option Char) (v rest : List Char),
      (∃ q, Reach reQ p v q rest) ↔
        ∃ u, v = u ++ rest ∧ u ≠ [] ∧ ShapeQ u ∧ boundary p u.head? = true ∧
          boundary u.getLast? rest.head? = true)
    (hQchar : ∀ u, ShapeQ u → '[' ∉ u ∧ ']' ∉ u)
    (hQint : ∀ u, ShapeQ u → ∀ x y, interior ≠ x ++ u ++ y) :
    ¬MS reQ o := by
  intro hms
  have hQprop := reachProp_of_iff hQiff
  obtain ⟨w, v, q, rest, ho, hreach⟩ := hms
  obtain ⟨u, rfl, hune, hshape, hbl, hbr⟩ := (hQiff _ _ _).mp ⟨q, hreach⟩
  obtain ⟨hnl, hnr⟩ := hQchar u hshape
  have hjo : joinOut repl ps = w ++ u ++ rest := by
    rw [hd.hout, ho, List.append_assoc]
  rcases locate hrepl ps w u rest hd.nokk hjo hune hnl hnr with
    ⟨ps1, k1, k2, ps2, hps, hw, hv⟩ | ⟨x, y, hint⟩
  · have hb1 : boundary (joinIn ps1 ++ k1).getLast? u.head? = true := by
      cases k1 with
      | nil =>
        cases u with
        | nil => exact absurd rfl hune
        | cons uh u' =>
          rw [List.append_nil]
          rw [hw, List.append_nil] at hbl
          exact prev_transfer hd hQprop ps1 _ uh hps (by simp [joinIn_cons, pieceIn]) hbl
      | cons c1 k1' =>
        rw [List.getLast?_append_of_ne_nil _ (by simp)]
        rw [hw, List.getLast?_append_of_ne_nil _ (by simp)] at hbl
        exact hbl
    have hb2 : boundary u.getLast? (k2 ++ joinIn ps2).head? = true := by
      cases k2 with
      | nil =>
        obtain ⟨ul, hul⟩ : ∃ ul, u.getLast? = some ul :=
          ⟨u.getLast hune, List.getLast?_eq_getLast u hune⟩
        rw [List.nil_append, hul]
        rw [hv, List.nil_append, hul] at hbr
        refine next_transfer hd hQprop ps2 (ps1 ++ [.keep ((k1 ++ u) ++ [])]) ul ?_ ?_ hbr
        · simp only [hps, List.append_assoc, List.singleton_append]
        · rw [joinIn_append]
          simp only [joinIn_cons, joinIn_nil, pieceIn, List.append_nil]
          rw [List.getLast?_append_of_ne_nil _
              (fun hcon => hune (List.append_eq_nil.mp hcon).2),
            List.getLast?_append_of_ne_nil _ hune]
          exact hul
      | cons c2 k2' =>
        rw [List.head?_append_of_ne_nil _ (by simp)]
        rw [hv, List.head?_append_of_ne_nil _ (by simp)] at hbr
        exact hbr
    obtain ⟨q', hr'⟩ := (hQiff (joinIn ps1 ++ k1).getLast? (u ++ (k2 ++ joinIn ps2))
      (k2 ++ joinIn ps2)).mpr ⟨u, rfl, hune, hshape, hb1, hb2⟩
    cases u with
    | nil => exact absurd rfl hune
    | cons uh u' =>
      have hnone := hd.keeps ps1 _ ps2 hps k1 uh (u' ++ k2) (by simp)
      have hsome :
          (firstRest reQ ((joinIn ps1 ++ k1).getLast? <|> none)
            (uh :: ((u' ++ k2) ++ joinIn ps2))).isSome = true := by
        rw [Option.orElse_none]
        refine firstRest_isSome_iff.mpr ⟨q', k2 ++ joinIn ps2, ?_⟩
        have heq : uh :: ((u' ++ k2) ++ joinIn ps2) = (uh :: u') ++ (k2 ++ joinIn ps2) := by
          simp [List.append_assoc]
        rw [heq]
        exact hr'
      rw [hnone] at hsome
      simp at hsome
  · exact absurd hint (hQint u hshape x y)

/-! ## Stage lemmas at the string level -/

theorem maskStep_of_isEmpty {re : RE} {ph t m : String}
    (h : (findall re t).isEmpty = true) : maskStep re ph t m = m := by
  simp [maskStep, h]

theorem maskStep_of_not_isEmpty {re : RE} {ph t m : String}
    (h : (findall re t).isEmpty = false) : maskStep re ph t m = subAll re ph m := by
  simp [maskStep, h]

theorem MS_maskStep_back {reQ reP : RE} {ShapeQ ShapeP : List Char → Prop}
    {interior : List Char} {ph t m : String}
    (hph : ph.toList = '[' :: (interior ++ [']']))
    (hQiff : ∀ (p : Option Char) (v rest : List Char),
      (∃ q, Reach reQ p v q rest) ↔
        ∃ u, v = u ++ rest ∧ u ≠ [] ∧ ShapeQ u ∧ boundary p u.head? = true ∧
          boundary u.getLast? rest.head? = true)
    (hPiff : ∀ (p : Option Char) (v rest : List Char),
      (∃ q, Reach reP p v q rest) ↔
        ∃ u, v = u ++ rest ∧ u ≠ [] ∧ ShapeP u ∧ boundary p u.head? = true ∧
          boundary u.getLast? rest.head? = true)
    (hPchar : ∀ u, ShapeP u → '[' ∉ u ∧ ']' ∉ u)
    (hPint : ∀ u, ShapeP u → ∀ x y, interior ≠ x ++ u ++ y)
    (hms : MS reP (maskStep reQ ph t m).toList) : MS reP m.toList := by
  cases hg : (findall reQ t).isEmpty with
  | true =>
    rw [maskStep_of_isEmpty hg] at hms
    exact hms
  | false =>
    rw [maskStep_of_not_isEmpty hg] at hms
    obtain ⟨ps, hd⟩ := subAllF_decomp reQ ph.toList (reach_consumes_of_iff hQiff)
      (m.toList.length + 1) none m.toList (Nat.lt_succ_self _)
    have ho : (subAll reQ ph m).toList =
        subAllF reQ ph.toList (m.toList.length + 1) none m.toList := rfl
    rw [ho] at hms
    exact transfer_main ShapeP hph hd (reachProp_of_iff hQiff) hPiff hPchar hPint hms

theorem no_MS_maskStep_self {reQ : RE} {ShapeQ : List Char → Prop}
    {interior : List Char} {ph t m : String}
    (hph : ph.toList = '[' :: (interior ++ [']']))
    (hQiff : ∀ (p : Option Char) (v rest : List Char),
      (∃ q, Reach reQ p v q rest) ↔
        ∃ u, v = u ++ rest ∧ u ≠ [] ∧ ShapeQ u ∧ boundary p u.head? = true ∧
          boundary u.getLast? rest.head? = true)
    (hQchar : ∀ u, ShapeQ u → '[' ∉ u ∧ ']' ∉ u)
    (hQint : ∀ u, ShapeQ u → ∀ x y, interior ≠ x ++ u ++ y)
    (hg : (findall reQ t).isEmpty = false) :
    ¬MS reQ (maskStep reQ ph t m).toList := by
  rw [maskStep_of_not_isEmpty hg]
  obtain ⟨ps, hd⟩ := subAllF_decomp reQ ph.toList (reach_consumes_of_iff hQiff)
    (m.toList.length + 1) none m.toList (Nat.lt_succ_self _)
  have ho : (subAll reQ ph m).toList =
      subAllF reQ ph.toList (m.toList.length + 1) none m.toList := rfl
  rw [ho]
  exact no_self_match ShapeQ hph hd hQiff hQchar hQint

theorem findall_eq_nil_of_not_MS {re : RE} {Shape : List Char → Prop} {s : String}
    (hiff : ∀ (p : Option Char) (v rest : List Char),
      (∃ q, Reach re p v q rest) ↔
        ∃ u, v = u ++ rest ∧ u ≠ [] ∧ Shape u ∧ boundary p u.head? = true ∧
          boundary u.getLast? rest.head? = true)
    (h : ¬MS re s.toList) : findall re s = [] := by
  have h2 : findallL re s.toList = [] := by
    by_contra hcon
    exact h ((MS_iff_findall_ne_nil (reach_nil_of_iff hiff)).mpr hcon)
  unfold findall
  rw [h2]
  rfl

theorem findall_isEmpty_false_of_MS {re : RE} {Shape : List Char → Prop} {s : String}
    (hiff : ∀ (p : Option Char) (v rest : List Char),
      (∃ q, Reach re p v q rest) ↔
        ∃ u, v = u ++ rest ∧ u ≠ [] ∧ Shape u ∧ boundary p u.head? = true ∧
          boundary u.getLast? rest.head? = true)
    (h : MS re s.toList) : (findall re s).isEmpty = false := by
  have h2 := (MS_iff_findall_ne_nil (reach_nil_of_iff hiff)).mp h
  cases hx : findallL re s.toList with
  | nil => exact absurd hx h2
  | cons a l =>
    unfold findall
    rw [hx]
    rfl

/-! ## The five patterns, packaged -/

theorem emailIff : ∀ (p : Option Char) (v rest : List Char),
    (∃ q, Reach Patterns.EMAIL p v q rest) ↔
      ∃ u, v = u ++ rest ∧ u ≠ [] ∧ EmailShape u ∧ boundary p u.head? = true ∧
        boundary u.getLast? rest.head? = true :=
  fun _ _ _ => Reach_EMAIL_iff

theorem phoneIff : ∀ (p : Option Char) (v rest : List Char),
    (∃ q, Reach Patterns.PHONE p v q rest) ↔
      ∃ u, v = u ++ rest ∧ u ≠ [] ∧ PhoneShape u ∧ boundary p u.head? = true ∧
        boundary u.getLast? rest.head? = true :=
  fun _ _ _ => Reach_PHONE_iff

theorem ssnIff : ∀ (p : Option Char) (v rest : List Char),
    (∃ q, Reach Patterns.SSN p v q rest) ↔
      ∃ u, v = u ++ rest ∧ u ≠ [] ∧ SsnShape u ∧ boundary p u.head? = true ∧
        boundary u.getLast? rest.head? = true :=
  fun _ _ _ => Reach_SSN_iff

theorem cardIff : ∀ (p : Option Char) (v rest : List Char),
    (∃ q, Reach Patterns.CARD p v q rest) ↔
      ∃ u, v = u ++ rest ∧ u ≠ [] ∧ CardShape u ∧ boundary p u.head? = true ∧
        boundary u.getLast? rest.head? = true :=
  fun _ _ _ => Reach_CARD_iff

theorem ipIff : ∀ (p : Option Char) (v rest : List Char),
    (∃ q, Reach Patterns.IP_ADDRESS p v q rest) ↔
      ∃ u, v = u ++ rest ∧ u ≠ [] ∧ IpShape u ∧ boundary p u.head? = true ∧
        boundary u.getLast? rest.head? = true :=
  fun _ _ _ => Reach_IP_iff

theorem emailNB : ∀ u, EmailShape u → '[' ∉ u ∧ ']' ∉ u :=
  no_brackets_of_chars (fun _ h => EmailShape_chars h)

theorem phoneNB : ∀ u, PhoneShape u → '[' ∉ u ∧ ']' ∉ u :=
  no_brackets_of_chars (fun _ h => PhoneShape_chars h)

theorem ssnNB : ∀ u, SsnShape u → '[' ∉ u ∧ ']' ∉ u :=
  no_brackets_of_chars (fun _ h => SsnShape_chars h)

theorem cardNB : ∀ u, CardShape u → '[' ∉ u ∧ ']' ∉ u :=
  no_brackets_of_chars (fun _ h => CardShape_chars h)

theorem ipNB : ∀ u, IpShape u → '[' ∉ u ∧ ']' ∉ u :=
  no_brackets_of_chars (fun _ h => IpShape_chars h)

theorem emailGood : ∀ u, EmailShape u → ∃ c ∈ u, goodCh c = true := fun _ h => EmailShape_good h
theorem phoneGood : ∀ u, PhoneShape u → ∃ c ∈ u, goodCh c = true := fun _ h => PhoneShape_good h
theorem ssnGood : ∀ u, SsnShape u → ∃ c ∈ u, goodCh c = true := fun _ h => SsnShape_good h
theorem cardGood : ∀ u, CardShape u → ∃ c ∈ u, goodCh c = true := fun _ h => CardShape_good h
theorem ipGood : ∀ u, IpShape u → ∃ c ∈ u, goodCh c = true := fun _ h => IpShape_good h

theorem goodCh_false_email : ∀ c ∈ ("이메일".toList), goodCh c = false := by decide
theorem goodCh_false_phone : ∀ c ∈ ("전화번호".toList), goodCh c = false := by decide
theorem goodCh_false_ssn : ∀ c ∈ ("주민번호".toList), goodCh c = false := by decide
theorem goodCh_false_card : ∀ c ∈ ("카드번호".toList), goodCh c = false := by decide
theorem goodCh_false_ip : ∀ c ∈ ("IP주소".toList), goodCh c = false := by decide

theorem ph_email_decomp : ("[이메일]" : String).toList = '[' :: ("이메일".toList ++ [']']) := by
  decide

theorem ph_phone_decomp : ("[전화번호]" : String).toList = '[' :: ("전화번호".toList ++ [']']) := by
  decide

theorem ph_ssn_decomp : ("[주민번호]" : String).toList = '[' :: ("주민번호".toList ++ [']']) := by
  decide

theorem ph_card_decomp : ("[카드번호]" : String).toList = '[' :: ("카드번호".toList ++ [']']) := by
  decide

theorem ph_ip_decomp : ("[IP주소]" : String).toList = '[' :: ("IP주소".toList ++ [']']) := by
  decide

/-! ## No pattern survives the full masking pipeline -/

theorem no_MS_email_maskedAll (t : String) : ¬MS Patterns.EMAIL (maskedAll t).toList := by
  intro hms
  unfold maskedAll at hms
  have h4 := MS_maskStep_back ph_ip_decomp ipIff emailIff emailNB
    (interior_incompat emailGood goodCh_false_ip) hms
  have h3 := MS_maskStep_back ph_card_decomp cardIff emailIff emailNB
    (interior_incompat emailGood goodCh_false_card) h4
  have h2 := MS_maskStep_back ph_ssn_decomp ssnIff emailIff emailNB
    (interior_incompat emailGood goodCh_false_ssn) h3
  have h1 := MS_maskStep_back ph_phone_decomp phoneIff emailIff emailNB
    (interior_incompat emailGood goodCh_false_phone) h2
  have h0 := MS_maskStep_back ph_email_decomp emailIff emailIff emailNB
    (interior_incompat emailGood goodCh_false_email) h1
  have hg := findall_isEmpty_false_of_MS emailIff h0
  exact no_MS_maskStep_self ph_email_decomp emailIff emailNB
    (interior_incompat emailGood goodCh_false_email) hg h1

theorem no_MS_phone_maskedAll (t : String) : ¬MS Patterns.PHONE (maskedAll t).toList := by
  intro hms
  unfold maskedAll at hms
  have h4 := MS_maskStep_back ph_ip_decomp ipIff phoneIff phoneNB
    (interior_incompat phoneGood goodCh_false_ip) hms
  have h3 := MS_maskStep_back ph_card_decomp cardIff phoneIff phoneNB
    (interior_incompat phoneGood goodCh_false_card) h4
  have h2 := MS_maskStep_back ph_ssn_decomp ssnIff phoneIff phoneNB
    (interior_incompat phoneGood goodCh_false_ssn) h3
  have h1 := MS_maskStep_back ph_phone_decomp phoneIff phoneIff phoneNB
    (interior_incompat phoneGood goodCh_false_phone) h2
  have h0 := MS_maskStep_back ph_email_decomp emailIff phoneIff phoneNB
    (interior_incompat phoneGood goodCh_false_email) h1
  have hg := findall_isEmpty_false_of_MS phoneIff h0
  exact no_MS_maskStep_self ph_phone_decomp phoneIff phoneNB
    (interior_incompat phoneGood goodCh_false_phone) hg h2

theorem no_MS_ssn_maskedAll (t : String) : ¬MS Patterns.SSN (maskedAll t).toList := by
  intro hms
  unfold maskedAll at hms
  have h4 := MS_maskStep_back ph_ip_decomp ipIff ssnIff ssnNB
    (interior_incompat ssnGood goodCh_false_ip) hms
  have h3 := MS_maskStep_back ph_card_decomp cardIff ssnIff ssnNB
    (interior_incompat ssnGood goodCh_false_card) h4
  have h2 := MS_maskStep_back ph_ssn_decomp ssnIff ssnIff ssnNB
    (interior_incompat ssnGood goodCh_false_ssn) h3
  have h1 := MS_maskStep_back ph_phone_decomp phoneIff ssnIff ssnNB
    (interior_incompat ssnGood goodCh_false_phone) h2
  have h0 := MS_maskStep_back ph_email_decomp emailIff ssnIff ssnNB
    (interior_incompat ssnGood goodCh_false_email) h1
  have hg := findall_isEmpty_false_of_MS ssnIff h0
  exact no_MS_maskStep_self ph_ssn_decomp ssnIff ssnNB
    (interior_incompat ssnGood goodCh_false_ssn) hg h3

theorem no_MS_card_maskedAll (t : String) : ¬MS Patterns.CARD (maskedAll t).toList := by
  intro hms
  unfold maskedAll at hms
  have h4 := MS_maskStep_back ph_ip_decomp ipIff cardIff cardNB
    (interior_incompat cardGood goodCh_false_ip) hms
  have h3 := MS_maskStep_back ph_card_decomp cardIff cardIff cardNB
    (interior_incompat cardGood goodCh_false_card) h4
  have h2 := MS_maskStep_back ph_ssn_decomp ssnIff cardIff cardNB
    (interior_incompat cardGood goodCh_false_ssn) h3
  have h1 := MS_maskStep_back ph_phone_decomp phoneIff cardIff cardNB
    (interior_incompat cardGood goodCh_false_phone) h2
  have h0 := MS_maskStep_back ph_email_decomp emailIff cardIff cardNB
    (interior_incompat cardGood goodCh_false_email) h1
  have hg := findall_isEmpty_false_of_MS cardIff h0
  exact no_MS_maskStep_self ph_card_decomp cardIff cardNB
    (interior_incompat cardGood goodCh_false_card) hg h4

theorem no_MS_ip_maskedAll (t : String) : ¬MS Patterns.IP_ADDRESS (maskedAll t).toList := by
  intro hms
  unfold maskedAll at hms
  have h4 := MS_maskStep_back ph_ip_decomp ipIff ipIff ipNB
    (interior_incompat ipGood goodCh_false_ip) hms
  have h3 := MS_maskStep_back ph_card_decomp cardIff ipIff ipNB
    (interior_incompat ipGood goodCh_false_card) h4
  have h2 := MS_maskStep_back ph_ssn_decomp ssnIff ipIff ipNB
    (interior_incompat ipGood goodCh_false_ssn) h3
  have h1 := MS_maskStep_back ph_phone_decomp phoneIff ipIff ipNB
    (interior_incompat ipGood goodCh_false_phone) h2
  have h0 := MS_maskStep_back ph_email_decomp emailIff ipIff ipNB
    (interior_incompat ipGood goodCh_false_email) h1
  have hg := findall_isEmpty_false_of_MS ipIff h0
  exact no_MS_maskStep_self ph_ip_decomp ipIff ipNB
    (interior_incompat ipGood goodCh_false_ip) hg hms

theorem detectedAll_maskedAll (t : String) : detectedAll (maskedAll t) = [] := by
  have he := findall_eq_nil_of_not_MS emailIff (no_MS_email_maskedAll t)
  have hp := findall_eq_nil_of_not_MS phoneIff (no_MS_phone_maskedAll t)
  have hs := findall_eq_nil_of_not_MS ssnIff (no_MS_ssn_maskedAll t)
  have hc := findall_eq_nil_of_not_MS cardIff (no_MS_card_maskedAll t)
  have hi := findall_eq_nil_of_not_MS ipIff (no_MS_ip_maskedAll t)
  simp [detectedAll, emailItems, phoneItems, ssnItems, cardItems, ipItems,
    he, hp, hs, hc, hi]

theorem maskedAll_idem (t : String) : maskedAll (maskedAll t) = maskedAll t :=
  maskedAll_of_no_match (detectedAll_maskedAll t)

/-! ## C4: idempotence of masking -/

/-- C4, counterexample to the claim as stated: with the reachable blocked-keyword
set `["이메일"]`, the input `"a@b.com"` passes the first filter with
`is_filtered = false` and masked text `"[이메일]"`, but re-running the filter on
that masked text hits the keyword and reports it in `detected_items`, which is
therefore not the empty list. -/
theorem c4_masking_idempotent_counterexample :
    (filterMessage ["이메일"] "a@b.com").is_filtered = false ∧
      (filterMessage ["이메일"]
        ((filterMessage ["이메일"] "a@b.com").masked_text)).detected_items ≠ [] := by
  decide

/-- C4, amended: masking is idempotent provided no blocked keyword occurs
case-insensitively in the first run's masked text. For every blocked-keyword
set and input whose filter result has `is_filtered = false`, if no keyword hits
the masked text, then filtering the masked text again detects nothing and
returns it unchanged: the category placeholders match none of the five PII
patterns, and substitution cannot manufacture a new match elsewhere. -/
theorem c4_masking_idempotent_amended (blocked : List String) (text : String)
    (h1 : (filterMessage blocked text).is_filtered = false)
    (h2 : ∀ kw ∈ blocked, keywordHits kw ((filterMessage blocked text).masked_text) = false) :
    (filterMessage blocked ((filterMessage blocked text).masked_text)).detected_items = [] ∧
      (filterMessage blocked ((filterMessage blocked text).masked_text)).masked_text =
        (filterMessage blocked text).masked_text := by
  have hf : blocked.find? (fun kw => keywordHits kw text) = none := by
    cases hx : blocked.find? (fun kw => keywordHits kw text) with
    | none => rfl
    | some k =>
      rw [filterMessage_isFiltered, hx] at h1
      simp at h1
  have hres := filterMessage_none blocked text hf
  have hf2 : blocked.find?
      (fun kw => keywordHits kw ((filterMessage blocked text).masked_text)) = none := by
    rw [List.find?_eq_none]
    intro kw hkw
    rw [h2 kw hkw]
    simp
  have hdm : detectedAll ((filterMessage blocked text).masked_text) = [] := by
    rw [hres]
    by_cases hd : (detectedAll text).isEmpty
    · rw [if_pos hd]
      exact List.isEmpty_iff.mp hd
    · rw [if_neg hd]
      exact detectedAll_maskedAll text
  rw [filterMessage_none blocked _ hf2, if_pos (by rw [hdm]; rfl)]
  exact ⟨rfl, rfl⟩

theorem c4_masking_idempotent_amended_witness :
    (filterMessage ["해킹"] "a@b.com").is_filtered = false ∧
      ((filterMessage ["해킹"]
          ((filterMessage ["해킹"] "a@b.com").masked_text)).detected_items = [] ∧
        (filterMessage ["해킹"]
            ((filterMessage ["해킹"] "a@b.com").masked_text)).masked_text =
          (filterMessage ["해킹"] "a@b.com").masked_text) :=
  ⟨by decide, c4_masking_idempotent_amended ["해킹"] "a@b.com" (by decide) (by decide)⟩
